/-
Verification of the s3webui object-store index synchronization engine.

This file shallowly embeds the indexer module (key decomposition, the
SQLite-backed index store, the reconciliation engine `rebuildIndex` /
`refreshIndex`, `getIndexStatus` and `searchIndexedObjects`) together with
the remote enumeration contract of `walkAllObjects`, and proves the frozen
claims about it.

Modelling conventions:
- SQLite rows become a `List Row`; the PRIMARY KEY uniqueness of `key`
  becomes a `Nodup` hypothesis on `rows.map Row.key` where it matters.
- JS strings are Lean `String`s; `x || null` coercion of empty strings is
  `orNull`; `lastIndexOf` returning `-1` is `Option Nat`.
- `new Date().toISOString()` becomes a deterministic, strictly increasing
  clock carried in `Env`; each write consumes one tick.  Timestamps are
  compared as strings, exactly as SQLite compares TEXT columns.
- `walkAllObjects` delivers the listed objects in order; a pagination
  failure is modelled by the flag `fails`: the objects delivered before the
  failing page fetch have been processed, then the run raises.  Amazon S3's
  ListObjectsV2 returns keys in strictly ascending lexicographic (byte)
  order; where a claim needs this listing contract it appears as a
  `Pairwise keyLt` hypothesis.
- `lower()` / `toLowerCase` are ASCII lowercasing on both sides (SQLite's
  `lower` is ASCII-only), `trim` strips ASCII whitespace.
-/
import Mathlib

set_option maxHeartbeats 1000000

namespace S3W

/-! ## Character/list utilities -/

/-- ASCII whitespace, the characters `trim` strips on the inputs we consider. -/
def isJsSpace (c : Char) : Bool :=
  c = ' ' || c = '\t' || c = '\n' || c = '\r'

/-- Strip whitespace from both ends of a character list (JS `trim`). -/
def trimL (s : List Char) : List Char :=
  ((s.dropWhile isJsSpace).reverse.dropWhile isJsSpace).reverse

def trimStr (s : String) : String :=
  String.mk (trimL s.data)

/-- ASCII lowercasing of a string (JS `toLowerCase` / SQLite `lower`). -/
def lowerStr (s : String) : String :=
  String.mk (s.data.map Char.toLower)

/-- The character predicate used when scanning for a delimiter. -/
def neChar (c : Char) : Char → Bool := fun x => x ≠ c

/-- Strict lexicographic order on character lists, byte order on the code
points: the order in which S3's ListObjectsV2 returns keys. -/
def lexLtB : List Char → List Char → Bool
  | [], [] => false
  | [], _ :: _ => true
  | _ :: _, [] => false
  | a :: as, b :: bs => if a < b then true else if b < a then false else lexLtB as bs

/-- Listing order on remote keys. -/
def keyLt (a b : String) : Prop := lexLtB a.data b.data = true

instance (a b : String) : Decidable (keyLt a b) := by
  unfold keyLt; infer_instance

/-- `p` is a (not necessarily proper) initial segment of `s`. -/
def isPreB : List Char → List Char → Bool
  | [], _ => true
  | _ :: _, [] => false
  | a :: as, b :: bs => a = b && isPreB as bs

/-- Last index of `c` in the list, `none` when absent (JS `lastIndexOf`). -/
def lastIdxOf (c : Char) : List Char → Option Nat
  | [] => none
  | a :: rest =>
    match lastIdxOf c rest with
    | some i => some (i + 1)
    | none => if a = c then some 0 else none

/-- Split a character list on `'/'`, keeping empty fields (JS `split("/")`). -/
def splitSlash : List Char → List (List Char)
  | [] => [[]]
  | c :: rest =>
    if c = '/' then [] :: splitSlash rest
    else
      match splitSlash rest with
      | [] => [[c]]
      | p :: ps => (c :: p) :: ps

/-- Join fields with `'/'`; inverse of `splitSlash`. -/
def joinSlash : List (List Char) → List Char
  | [] => []
  | [s] => s
  | s :: rest => s ++ '/' :: joinSlash rest

/-- All suffixes of a character list, longest first. -/
def suffixesB : List Char → List (List Char)
  | [] => [[]]
  | c :: t => (c :: t) :: suffixesB t

/-- SQL `LIKE` pattern matching: `'%'` matches any run (the rest of the
pattern must match some suffix), `'_'` any single character, everything
else literally.  Both sides are already lowercased by the query, so
literal comparison is plain equality. -/
def likeM : List Char → List Char → Bool
  | [], s => s.isEmpty
  | '%' :: ps, s => (suffixesB s).any (likeM ps)
  | '_' :: ps, s =>
    (match s with
     | [] => false
     | _ :: t => likeM ps t)
  | c :: ps, s =>
    (match s with
     | [] => false
     | b :: t => c = b && likeM ps t)

/-- `n` occurs as a contiguous substring of `s`. -/
def isSubB (n : List Char) : List Char → Bool
  | [] => isPreB n []
  | c :: t => isPreB n (c :: t) || isSubB n t

/-! ## Data model

One structure per SQLite table row plus the scan-state singleton; the
fields mirror the `object_index` schema. -/

/-- A remote object descriptor as yielded by `walkAllObjects`
(`S3ObjectDetail`, with the `|| undefined` normalizations of `aws.ts`
already folded into the `Option`s). -/
structure RemoteObj where
  key : String
  size : Nat
  lastModified : Option String
  etag : Option String
deriving DecidableEq

/-- One row of the `object_index` table.  `typ` is the `type` column. -/
structure Row where
  key : String
  name : String
  extension : Option String
  size : Nat
  last_modified : Option String
  etag : Option String
  updated_at : String
  typ : String
deriving DecidableEq

/-- The singleton `index_state` row. -/
structure IndexState where
  last_full_scan : Option String := none
  last_delta_scan : Option String := none
deriving DecidableEq

/-- The whole persistent state plus the timestamp clock. -/
structure Env where
  rows : List Row
  state : IndexState
  clock : Nat
deriving DecidableEq

/-- The summary returned by `refreshIndex`. -/
structure Summary where
  added : Nat
  updated : Nat
  removed : Nat
  files : Nat
  folders : Nat
deriving DecidableEq

/-- Classification of one processed key, per the delta-refresh logic. -/
inductive Decision where
  | addedD
  | updatedD
  | unchangedD
deriving DecidableEq

/-! ## Key decomposition -/

/-- JS falsy-to-null coercion `x || null` on nullable strings. -/
def orNull : Option String → Option String
  | some s => if s = "" then none else some s
  | none => none

/-- `extractExtension`: the lower-cased substring after the last dot,
provided the dot comes after the last slash (`-1` sentinels modelled by
`Option`). -/
def extractExtension (key : String) : String :=
  let lastSlash := lastIdxOf '/' key.data
  let lastDot := lastIdxOf '.' key.data
  match lastDot with
  | none => ""
  | some d =>
    match lastSlash with
    | none => String.mk ((key.data.drop (d + 1)).map Char.toLower)
    | some s =>
      if d < s then "" else String.mk ((key.data.drop (d + 1)).map Char.toLower)

/-- The nonempty `/`-separated fields of a key (`key.split("/").filter(Boolean)`). -/
def keyParts (key : String) : List String :=
  ((splitSlash key.data).map String.mk).filter (fun s => s ≠ "")

/-- `basename`: last nonempty field, or the key itself. -/
def basename (key : String) : String :=
  ((keyParts key).getLast?).getD key

/-- The accumulation loop of `folderPrefixesForKey`. -/
def prefixAux (acc : String) : List String → List (String × String)
  | [] => []
  | n :: rest =>
    if n = "" then prefixAux acc rest
    else
      let acc2 := acc ++ n ++ "/"
      (acc2, n) :: prefixAux acc2 rest

/-- `folderPrefixesForKey`: `(folderKey, folderName)` pairs for each proper
ancestor of `key`, shallowest first. -/
def folderPrefixesForKey (key : String) : List (String × String) :=
  prefixAux "" ((keyParts key).dropLast)

/-- Just the synthesized ancestor folder keys. -/
def ancKeys (key : String) : List String :=
  (folderPrefixesForKey key).map Prod.fst

/-! ## Index store operations -/

def nowIso (c : Nat) : String :=
  String.mk ('t' :: (Nat.repr c).data)

def containsKey (rows : List Row) (k : String) : Bool :=
  rows.any (fun r => r.key = k)

def getRow (rows : List Row) (k : String) : Option Row :=
  rows.find? (fun r => r.key = k)

/-- `INSERT ... ON CONFLICT(key) DO UPDATE`: replace the row with this key,
or append. -/
def upsertRow (rows : List Row) (r : Row) : List Row :=
  if containsKey rows r.key then rows.map (fun x => if x.key = r.key then r else x)
  else rows ++ [r]

/-- `updateState`: merge the partial update into the current state, with the
`|| null` coercions of the source.  `none` in an update slot means the field
was absent from the partial update. -/
def mergeState (cur : IndexState) (fullU deltaU : Option (Option String)) : IndexState :=
  let nf := match fullU with
    | some v => v
    | none => cur.last_full_scan
  let nd := match deltaU with
    | some v => v
    | none => cur.last_delta_scan
  { last_full_scan := orNull nf, last_delta_scan := orNull nd }

def countTyp (rows : List Row) (t : String) : Nat :=
  (rows.filter (fun r => r.typ = t)).length

/-- The status record of `getIndexStatus`. -/
structure IndexStatus where
  objectCount : Nat
  lastFullScan : Option String
  lastDeltaScan : Option String
deriving DecidableEq

def getIndexStatus (env : Env) : IndexStatus :=
  { objectCount := countTyp env.rows "file",
    lastFullScan := orNull env.state.last_full_scan,
    lastDeltaScan := orNull env.state.last_delta_scan }

/-! ## Reconciliation engine -/

/-- In-flight state of one scan: the store, the observed-key and
folder-dedup sets, the running counters, and (ghost) per-key decision logs
for the folder and file stages. -/
structure ScanSt where
  env : Env
  seenKeys : List String
  seenFolders : List String
  added : Nat
  updated : Nat
  flog : List (String × Decision)
  filelog : List (String × Decision)
deriving DecidableEq

def initScan (env : Env) : ScanSt :=
  { env := env, seenKeys := [], seenFolders := [], added := 0, updated := 0,
    flog := [], filelog := [] }

/-- The canonical folder row written by folder synthesis. -/
def folderRow (p : String × String) (t : Nat) : Row :=
  { key := p.1, name := p.2, extension := none, size := 0,
    last_modified := none, etag := none, updated_at := nowIso t, typ := "folder" }

/-- The canonical file row written for an observed object. -/
def fileRow (obj : RemoteObj) (t : Nat) : Row :=
  { key := obj.key, name := basename obj.key,
    extension := orNull (some (extractExtension obj.key)),
    size := obj.size, last_modified := orNull obj.lastModified,
    etag := orNull obj.etag, updated_at := nowIso t, typ := "file" }

/-- Write the synthesized folder row and account for it (`added` on a
missing prior row, `updated` on a present-but-wrong one). -/
def writeFolder (st : ScanSt) (p : String × String) (d : Decision) : ScanSt :=
  { st with
      env := { st.env with
                rows := upsertRow st.env.rows (folderRow p st.env.clock),
                clock := st.env.clock + 1 },
      added := if d = Decision.addedD then st.added + 1 else st.added,
      updated := if d = Decision.updatedD then st.updated + 1 else st.updated,
      flog := (p.1, d) :: st.flog }

/-- One iteration of the ancestor-folder loop of `refreshIndex`: skip keys
already handled this run, otherwise write unless the stored row is already
a folder of size 0 without a modification time; mark the key observed
regardless. -/
def processFolder (st : ScanSt) (p : String × String) : ScanSt :=
  if st.seenFolders.contains p.1 then st
  else
    let st1 :=
      match getRow st.env.rows p.1 with
      | none => writeFolder st p Decision.addedD
      | some r =>
        if r.typ ≠ "folder" ∨ r.size ≠ 0 ∨ r.last_modified ≠ none then
          writeFolder st p Decision.updatedD
        else st
    { st1 with
        seenFolders := p.1 :: st1.seenFolders,
        seenKeys := p.1 :: st1.seenKeys }

/-- Write the file row for an observed object and account for it. -/
def writeFile (st : ScanSt) (obj : RemoteObj) (d : Decision) : ScanSt :=
  { st with
      env := { st.env with
                rows := upsertRow st.env.rows (fileRow obj st.env.clock),
                clock := st.env.clock + 1 },
      added := if d = Decision.addedD then st.added + 1 else st.added,
      updated := if d = Decision.updatedD then st.updated + 1 else st.updated,
      filelog := (obj.key, d) :: st.filelog }

/-- The object's own stage of `refreshIndex`: written only when kind,
size, modification time or checksum tag differ from the stored values. -/
def fileStage (st : ScanSt) (obj : RemoteObj) : ScanSt :=
  match getRow st.env.rows obj.key with
  | none => writeFile st obj Decision.addedD
  | some r =>
    if r.typ ≠ "file" ∨ r.size ≠ obj.size ∨
        r.last_modified ≠ orNull obj.lastModified ∨ r.etag ≠ orNull obj.etag then
      writeFile st obj Decision.updatedD
    else { st with filelog := (obj.key, Decision.unchangedD) :: st.filelog }

/-- Processing of one listed object in `refreshIndex`: ancestor folders
first, then the object's own row. -/
def processObj (st : ScanSt) (obj : RemoteObj) : ScanSt :=
  let st1 := fileStage ((folderPrefixesForKey obj.key).foldl processFolder st) obj
  { st1 with seenKeys := obj.key :: st1.seenKeys }

/-- The enumeration loop of `refreshIndex` over the delivered objects. -/
def refreshScan (objs : List RemoteObj) (env : Env) : ScanSt :=
  objs.foldl processObj (initScan env)

/-- The deletion sweep: walk the selected keys, delete each one that was not
observed, counting deletions. -/
def sweepGo (seen : List String) : List String → List Row → Nat → List Row × Nat
  | [], rows, n => (rows, n)
  | k :: ks, rows, n =>
    if seen.contains k then sweepGo seen ks rows n
    else sweepGo seen ks (rows.filter (fun r => r.key ≠ k)) (n + 1)

def sweep (rows : List Row) (seen : List String) : List Row × Nat :=
  sweepGo seen (rows.map (fun r => r.key)) rows 0

/-- `refreshIndex`.  `fails = true` means the paginated enumeration raised
after delivering `objs`: the partial upserts stand, the deletion sweep and
the scan-state update are never reached, and the caller gets an error
(`none`) instead of a summary. -/
def refreshIndex (objs : List RemoteObj) (fails : Bool) (env : Env) :
    Option Summary × Env :=
  let st := refreshScan objs env
  if fails then (none, st.env)
  else
    let swept := sweep st.env.rows st.seenKeys
    let now := nowIso st.env.clock
    let env2 : Env :=
      { rows := swept.1,
        state := mergeState env.state none (some (some now)),
        clock := st.env.clock + 1 }
    (some { added := st.added, updated := st.updated, removed := swept.2,
            files := countTyp swept.1 "file",
            folders := countTyp swept.1 "folder" }, env2)

/-- One iteration of the ancestor-folder loop of `rebuildIndex`
(unconditional upsert, dedup only by the in-memory set). -/
def processFolderR (st : ScanSt) (p : String × String) : ScanSt :=
  if st.seenFolders.contains p.1 then st
  else
    { st with
        env := { st.env with
                  rows := upsertRow st.env.rows (folderRow p st.env.clock),
                  clock := st.env.clock + 1 },
        seenFolders := p.1 :: st.seenFolders,
        seenKeys := p.1 :: st.seenKeys }

/-- Processing of one listed object in `rebuildIndex`. -/
def processObjR (st : ScanSt) (obj : RemoteObj) : ScanSt :=
  let stf := (folderPrefixesForKey obj.key).foldl processFolderR st
  { stf with
      env := { stf.env with
                rows := upsertRow stf.env.rows (fileRow obj stf.env.clock),
                clock := stf.env.clock + 1 },
      seenKeys := obj.key :: stf.seenKeys }

/-- `rebuildIndex`: clear the store, re-enumerate everything, then stamp
both scan-state timestamps.  The result pair is `{indexed, folders}`
computed from the final table, `none` on enumeration failure. -/
def rebuildIndex (objs : List RemoteObj) (fails : Bool) (env : Env) :
    Option (Nat × Nat) × Env :=
  let env0 : Env := { env with rows := [] }
  let st := objs.foldl processObjR (initScan env0)
  if fails then (none, st.env)
  else
    let now := nowIso st.env.clock
    let env2 : Env :=
      { rows := st.env.rows,
        state := mergeState env.state (some (some now)) (some (some now)),
        clock := st.env.clock + 1 }
    ((some (countTyp st.env.rows "file", countTyp st.env.rows "folder")), env2)

/-! ## Query service -/

structure SearchParams where
  search : Option String := none
  limit : Option Int := none
  offset : Option Int := none

def clampLimit (l : Option Int) : Int := min (max (l.getD 20) 1) 200

def clampOffset (o : Option Int) : Int := max (o.getD 0) 0

/-- The `WHERE` predicate: the lowercased needle as a `LIKE` pattern against
`lower(name)`, `lower(key)` and `lower(extension)`; a NULL extension never
matches (SQL three-valued logic). -/
def rowMatchesLike (needle : String) (r : Row) : Bool :=
  let pat := '%' :: needle.data ++ ['%']
  likeM pat (lowerStr r.name).data || likeM pat (lowerStr r.key).data ||
    (match r.extension with
     | some e => likeM pat (lowerStr e).data
     | none => false)

/-- Insertion into a list kept sorted by `updated_at` descending, in the
byte order SQLite uses for TEXT. -/
def insDesc (r : Row) : List Row → List Row
  | [] => [r]
  | x :: xs =>
    if lexLtB r.updated_at.data x.updated_at.data then x :: insDesc r xs
    else r :: x :: xs

/-- `ORDER BY updated_at DESC` as a stable insertion sort. -/
def sortDesc (rows : List Row) : List Row :=
  rows.foldr insDesc []

/-- Output normalization of a returned record (trailing-Z normalization of
timestamps, `|| null` on extension, NULLs surfaced as `none`). -/
structure OutItem where
  key : String
  name : String
  extension : Option String
  size : Nat
  lastModified : Option String
  updatedAt : String
  typ : String
deriving DecidableEq

def zNorm (s : String) : String :=
  match s.data.getLast? with
  | some 'Z' => s
  | _ => s ++ "Z"

def toOut (clock : Nat) (r : Row) : OutItem :=
  { key := r.key, name := r.name, extension := orNull r.extension,
    size := r.size, lastModified := r.last_modified.map zNorm,
    updatedAt := if r.updated_at = "" then nowIso clock else zNorm r.updated_at,
    typ := if r.typ = "folder" then "folder" else "file" }

structure SearchOut where
  items : List OutItem
  total : Nat
deriving DecidableEq

/-- `searchIndexedObjects`. -/
def searchIndexedObjects (env : Env) (params : SearchParams) : SearchOut :=
  let limit := clampLimit params.limit
  let offset := clampOffset params.offset
  let filtered :=
    match params.search with
    | none => env.rows
    | some q =>
      if q = "" then env.rows
      else
        let needle := trimStr (lowerStr q)
        if needle = "" then env.rows
        else env.rows.filter (rowMatchesLike needle)
  let sorted := sortDesc filtered
  { items := ((sorted.drop offset.toNat).take limit.toNat).map (toOut env.clock),
    total := filtered.length }

/-! ## Spec-side definitions

Definitions following the specification's wording, to be compared with the
embedded code. -/

/-- The extension stored for a key: the code's `extractExtension` with the
`ext || null` coercion that both call sites apply to its result. -/
def extOpt (key : String) : Option String :=
  orNull (some (extractExtension key))

/-- Extension per the spec's words (§4.1): the substring after the last
dot, lower-cased, provided that dot occurs after the last path separator,
otherwise absent — computed here by scanning the key from the end until the
first dot.  An empty suffix is represented as absent, which is how the
store represents it. -/
def specExtension (key : String) : Option String :=
  let r := key.data.reverse
  let pre := r.takeWhile (neChar '.')
  if '.' ∈ r ∧ '/' ∉ pre ∧ pre ≠ [] then
    some (String.mk ((pre.reverse).map Char.toLower))
  else none

/-- Substring matching per the spec's words for search: the needle occurs
in the lower-cased name, key or extension (an absent extension never
matches). -/
def specMatches (q : String) (r : Row) : Bool :=
  isSubB (lowerStr q).data (lowerStr r.name).data ||
    isSubB (lowerStr q).data (lowerStr r.key).data ||
    (match r.extension with
     | some e => isSubB (lowerStr q).data (lowerStr e).data
     | none => false)

/-- A proper `/`-delimited prefix of a key, per the claim's wording: a
proper initial segment of the key that ends with the path separator. -/
def ancPreB (p k : String) : Bool :=
  isPreB p.data k.data && p ≠ k && p.data.getLast? = some '/'

/-- A well-formed object key: splitting on `/` yields no empty field
before the last one (no leading `/`, no `//`), and the key is nonempty.
Keys of this shape are the ones for which synthesized ancestor folders are
exactly the `/`-delimited prefixes. -/
def wfKeyB (k : String) : Bool :=
  k ≠ "" && ((splitSlash k.data).dropLast).all (fun s => s ≠ [])

/-- A key was observed by a delta run over `objs`: it is a listed object
key or a synthesized ancestor-folder key of one. -/
def observedB (objs : List RemoteObj) (k : String) : Bool :=
  objs.any (fun o => o.key = k) || objs.any (fun o => (ancKeys o.key).contains k)

/-- Query needles for which SQL `LIKE` with `%needle%` is exactly
substring search: no `%` or `_` wildcard characters. -/
def noWildB (s : String) : Bool :=
  s.data.all (fun c => c ≠ '%' && c ≠ '_')

/-- A stored row that matches a remote object exactly on the four compared
fields: the delta refresh leaves such a row untouched. -/
def fileOk (o : RemoteObj) (r : Row) : Prop :=
  r.typ = "file" ∧ r.size = o.size ∧ r.last_modified = orNull o.lastModified ∧
    r.etag = orNull o.etag

/-- A stored row that already looks like a synthesized folder: the folder
pass leaves such a row untouched. -/
def folderOk (r : Row) : Prop :=
  r.typ = "folder" ∧ r.size = 0 ∧ r.last_modified = none

/-- The store is canonical for a listing: every listed key holds a
matching file row, every synthesized ancestor key holds a folder row, and
every stored key was observed.  A completed delta refresh both establishes
this and is a counter no-op on it. -/
def storeCanonical (objs : List RemoteObj) (rows : List Row) : Prop :=
  (∀ o ∈ objs, ∃ r, getRow rows o.key = some r ∧ fileOk o r) ∧
  (∀ o ∈ objs, ∀ p ∈ folderPrefixesForKey o.key,
    ∃ r, getRow rows p.1 = some r ∧ folderOk r) ∧
  (∀ r ∈ rows, observedB objs r.key = true)

/-- The scan counters agree with the ghost per-key decision logs. -/
def countersMatchLogs (st : ScanSt) : Prop :=
  st.added = ((st.flog.filter (fun e => e.2 = Decision.addedD)).length +
      (st.filelog.filter (fun e => e.2 = Decision.addedD)).length) ∧
  st.updated = ((st.flog.filter (fun e => e.2 = Decision.updatedD)).length +
      (st.filelog.filter (fun e => e.2 = Decision.updatedD)).length)

/-! ## Lemmas: `lastIndexOf` and extension extraction -/

theorem lastIdxOf_eq_none {c : Char} : ∀ {l : List Char}, lastIdxOf c l = none ↔ c ∉ l := by
  intro l
  induction l with
  | nil => simp [lastIdxOf]
  | cons a rest ih =>
    simp only [lastIdxOf, List.mem_cons]
    cases h : lastIdxOf c rest with
    | some i =>
      have : c ∈ rest := by
        by_contra hc
        exact (by simp [ih.2 hc] at h)
      simp [this]
    | none =>
      have hnr : c ∉ rest := ih.1 h
      by_cases hac : a = c
      · simp [hac]
      · simp [hac, hnr]
        intro h'
        exact hac h'.symm

theorem lastIdxOf_mem {c : Char} {l : List Char} {i : Nat}
    (h : lastIdxOf c l = some i) : c ∈ l := by
  by_contra hc
  simp [lastIdxOf_eq_none.2 hc] at h

theorem lastIdxOf_of_mem {c : Char} {l : List Char} (h : c ∈ l) :
    ∃ i, lastIdxOf c l = some i := by
  cases hl : lastIdxOf c l with
  | none => exact absurd h (lastIdxOf_eq_none.1 hl)
  | some i => exact ⟨i, rfl⟩

theorem lastIdxOf_lt_length {c : Char} : ∀ {l : List Char} {i : Nat},
    lastIdxOf c l = some i → i < l.length := by
  intro l
  induction l with
  | nil => intro i h; simp [lastIdxOf] at h
  | cons a rest ih =>
    intro i h
    simp only [lastIdxOf] at h
    cases hr : lastIdxOf c rest with
    | some j =>
      rw [hr] at h
      cases h
      exact Nat.succ_lt_succ (ih hr)
    | none =>
      rw [hr] at h
      by_cases hac : a = c
      · simp [hac] at h
        simp [← h]
      · simp [hac] at h

theorem not_mem_drop_lastIdxOf {c : Char} : ∀ {l : List Char} {i : Nat},
    lastIdxOf c l = some i → c ∉ l.drop (i + 1) := by
  intro l
  induction l with
  | nil => intro i h; simp [lastIdxOf] at h
  | cons a rest ih =>
    intro i h
    simp only [lastIdxOf] at h
    cases hr : lastIdxOf c rest with
    | some j =>
      rw [hr] at h
      cases h
      simpa using ih hr
    | none =>
      rw [hr] at h
      by_cases hac : a = c
      · simp [hac] at h
        subst h
        simpa using lastIdxOf_eq_none.1 hr
      · simp [hac] at h

theorem mem_drop_self_lastIdxOf {c : Char} : ∀ {l : List Char} {i : Nat},
    lastIdxOf c l = some i → c ∈ l.drop i := by
  intro l
  induction l with
  | nil => intro i h; simp [lastIdxOf] at h
  | cons a rest ih =>
    intro i h
    simp only [lastIdxOf] at h
    cases hr : lastIdxOf c rest with
    | some j =>
      rw [hr] at h
      cases h
      simpa using ih hr
    | none =>
      rw [hr] at h
      by_cases hac : a = c
      · simp [hac] at h
        subst h
        simp [hac]
      · simp [hac] at h

theorem takeWhile_append_stop {p : Char → Bool} :
    ∀ {l1 : List Char} (l2 : List Char), (∃ x ∈ l1, p x = false) →
      (l1 ++ l2).takeWhile p = l1.takeWhile p := by
  intro l1
  induction l1 with
  | nil => intro l2 h; simp at h
  | cons a l1 ih =>
    intro l2 h
    by_cases hpa : p a
    · obtain ⟨x, hx, hpx⟩ := h
      rcases List.mem_cons.1 hx with hx1 | hx1
      · rw [hx1] at hpx; simp [hpx] at hpa
      · simp [List.takeWhile, hpa, ih l2 ⟨x, hx1, hpx⟩]
    · simp [List.takeWhile, Bool.of_not_eq_true hpa]

theorem takeWhile_append_all {p : Char → Bool} :
    ∀ {l1 : List Char} (l2 : List Char), (∀ x ∈ l1, p x = true) →
      (l1 ++ l2).takeWhile p = l1 ++ l2.takeWhile p := by
  intro l1
  induction l1 with
  | nil => intro l2 _; simp
  | cons a l1 ih =>
    intro l2 h
    have hpa : p a = true := h a (by simp)
    simp [List.takeWhile, hpa, ih l2 (fun x hx => h x (by simp [hx]))]

theorem mem_of_mem_takeWhile {p : Char → Bool} {x : Char} :
    ∀ {l : List Char}, x ∈ l.takeWhile p → x ∈ l := by
  intro l
  induction l with
  | nil => simp
  | cons a l ih =>
    intro h
    by_cases hpa : p a
    · simp only [List.takeWhile, hpa] at h
      rcases List.mem_cons.1 h with h1 | h1
      · simp [h1]
      · simp [ih h1]
    · simp [List.takeWhile, Bool.of_not_eq_true hpa] at h

/-- The characters after the last occurrence of `c` are exactly the
reversed initial run of non-`c` characters of the reversed list. -/
theorem drop_lastIdxOf {c : Char} : ∀ {l : List Char} {i : Nat},
    lastIdxOf c l = some i →
      l.drop (i + 1) = (l.reverse.takeWhile (neChar c)).reverse := by
  intro l
  induction l with
  | nil => intro i h; simp [lastIdxOf] at h
  | cons a rest ih =>
    intro i h
    simp only [lastIdxOf] at h
    cases hr : lastIdxOf c rest with
    | some j =>
      rw [hr] at h
      cases h
      have hstop : (rest.reverse ++ [a]).takeWhile (neChar c) =
          rest.reverse.takeWhile (neChar c) := by
        refine takeWhile_append_stop _ ⟨c, ?_, by simp [neChar]⟩
        simpa using lastIdxOf_mem hr
      rw [List.reverse_cons, hstop, List.drop_succ_cons]
      exact ih hr
    | none =>
      rw [hr] at h
      by_cases hac : a = c
      · simp [hac] at h
        subst h
        subst hac
        have h1 : ∀ x ∈ rest.reverse, neChar a x = true := by
          intro x hx
          have hxr : x ∈ rest := by simpa using hx
          have hne : x ≠ a := by
            intro hxa; subst hxa
            exact lastIdxOf_eq_none.1 hr hxr
          simp [neChar, hne]
        have hA : (rest.reverse ++ [a]).takeWhile (neChar a) =
            rest.reverse ++ ([a] : List Char).takeWhile (neChar a) :=
          takeWhile_append_all [a] h1
        have hB : ([a] : List Char).takeWhile (neChar a) = [] := by
          simp [List.takeWhile, neChar]
        rw [List.reverse_cons, List.drop_succ_cons, List.drop_zero, hA, hB]
        simp
      · simp [hac] at h

theorem mem_drop_iff_lastIdxOf {c : Char} {l : List Char} {d : Nat} :
    c ∈ l.drop (d + 1) ↔ ∃ s, lastIdxOf c l = some s ∧ d < s := by
  constructor
  · intro h
    have hc : c ∈ l := List.drop_subset _ l h
    obtain ⟨s, hs⟩ := lastIdxOf_of_mem hc
    refine ⟨s, hs, ?_⟩
    by_contra hds
    push_neg at hds
    have hsub : l.drop (d + 1) ⊆ l.drop (s + 1) := by
      intro x hx
      have : l.drop (d + 1) = (l.drop (s + 1)).drop (d - s) := by
        rw [List.drop_drop]
        congr 1
        omega
      rw [this] at hx
      exact List.drop_subset _ _ hx
    exact not_mem_drop_lastIdxOf hs (hsub h)
  · rintro ⟨s, hs, hds⟩
    have hmem : c ∈ l.drop s := mem_drop_self_lastIdxOf hs
    have : l.drop s ⊆ l.drop (d + 1) := by
      intro x hx
      have : l.drop s = (l.drop (d + 1)).drop (s - (d + 1)) := by
        rw [List.drop_drop]
        congr 1
        omega
      rw [this] at hx
      exact List.drop_subset _ _ hx
    exact this hmem

@[simp] theorem data_mk (l : List Char) : (String.mk l).data = l := rfl

@[simp] theorem mk_nil_eq_empty : String.mk [] = "" := rfl

theorem mk_cons_ne_empty (a : Char) (l : List Char) : String.mk (a :: l) ≠ "" := by
  intro h
  exact absurd (congrArg String.data h) (by simp)

/-- Common tail of the extension equivalence: once the dot is known to come
after every slash, the two computations produce the same optional value. -/
theorem ext_tail {l : List Char} {d : Nat} (hd : lastIdxOf '.' l = some d)
    (hpre : ('/' : Char) ∉ l.reverse.takeWhile (neChar '.')) :
    orNull (some (String.mk ((l.drop (d + 1)).map Char.toLower))) =
      (if ('.' : Char) ∈ l.reverse ∧ ('/' : Char) ∉ l.reverse.takeWhile (neChar '.') ∧
          l.reverse.takeWhile (neChar '.') ≠ [] then
        some (String.mk (((l.reverse.takeWhile (neChar '.')).reverse).map Char.toLower))
      else none) := by
  have hdm : ('.' : Char) ∈ l := lastIdxOf_mem hd
  have hdrop := drop_lastIdxOf hd
  cases he : l.drop (d + 1) with
  | nil =>
    have hpren : l.reverse.takeWhile (neChar '.') = [] := by
      have : (l.reverse.takeWhile (neChar '.')).reverse = [] := hdrop.symm.trans he
      simpa using this
    simp [orNull, hpren]
  | cons a rest =>
    have hprenn : l.reverse.takeWhile (neChar '.') ≠ [] := by
      intro hcontra
      rw [hcontra] at hdrop
      simp [he] at hdrop
    rw [if_pos ⟨by simpa using hdm, hpre, hprenn⟩, ← hdrop, he]
    simp [orNull, mk_cons_ne_empty]

/-- The stored extension of a key agrees with the spec's description. -/
theorem extOpt_eq_spec (key : String) : extOpt key = specExtension key := by
  obtain ⟨l⟩ := key
  simp only [extOpt, extractExtension, specExtension, data_mk]
  cases hd : lastIdxOf '.' l with
  | none =>
    have hnm : ('.' : Char) ∉ l := lastIdxOf_eq_none.1 hd
    simp [orNull, hnm]
  | some d =>
    cases hs : lastIdxOf '/' l with
    | none =>
      have hsl : ('/' : Char) ∉ l := lastIdxOf_eq_none.1 hs
      have hpre : ('/' : Char) ∉ l.reverse.takeWhile (neChar '.') := by
        intro h
        exact hsl (by simpa using mem_of_mem_takeWhile h)
      simpa using ext_tail hd hpre
    | some s =>
      by_cases hds : d < s
      · have hmem : ('/' : Char) ∈ l.drop (d + 1) :=
          mem_drop_iff_lastIdxOf.2 ⟨s, hs, hds⟩
        have hpre : ('/' : Char) ∈ l.reverse.takeWhile (neChar '.') := by
          rw [drop_lastIdxOf hd] at hmem
          simpa using hmem
        simp [orNull, hds, hpre]
      · have hnd : ('/' : Char) ∉ l.drop (d + 1) := by
          intro h
          obtain ⟨s', hs', hlt⟩ := mem_drop_iff_lastIdxOf.1 h
          rw [hs] at hs'
          cases hs'
          exact hds hlt
        have hpre : ('/' : Char) ∉ l.reverse.takeWhile (neChar '.') := by
          intro h
          apply hnd
          rw [drop_lastIdxOf hd]
          simpa using h
        have := ext_tail hd hpre
        simpa [hds] using this

/-- C5: `extension(key)` returns the lower-cased substring after the last
dot when that dot occurs after the last path separator, and absent
otherwise (a dot inside a folder segment never counts); in particular on
the three spec examples. -/
theorem claim_c5_extension :
    (∀ key : String, extOpt key = specExtension key) ∧
    extOpt "a/b/report.v2.CSV" = some "csv" ∧
    extOpt "a/b/noext" = none ∧
    extOpt "a.b/noext" = none :=
  ⟨extOpt_eq_spec, by decide, by decide, by decide⟩

/-! ## Lemmas: the index store -/

theorem containsKey_iff {rows : List Row} {k : String} :
    containsKey rows k = true ↔ ∃ r ∈ rows, r.key = k := by
  simp [containsKey]

theorem containsKey_upsert {rows : List Row} {r : Row} {k : String}
    (h : containsKey rows k = true) : containsKey (upsertRow rows r) k = true := by
  obtain ⟨x, hx, hxk⟩ := containsKey_iff.1 h
  unfold upsertRow
  split
  · refine containsKey_iff.2 ?_
    by_cases hxr : x.key = r.key
    · exact ⟨r, List.mem_map.2 ⟨x, hx, by simp [hxr]⟩, by rw [← hxk, hxr]⟩
    · exact ⟨x, List.mem_map.2 ⟨x, hx, by simp [hxr]⟩, hxk⟩
  · exact containsKey_iff.2 ⟨x, by simp [hx], hxk⟩

theorem mem_upsert_of_key_ne {rows : List Row} {r x : Row}
    (hx : x ∈ rows) (hne : x.key ≠ r.key) : x ∈ upsertRow rows r := by
  unfold upsertRow
  split
  · exact List.mem_map.2 ⟨x, hx, by simp [hne]⟩
  · simp [hx]

theorem mem_upsert_cases {rows : List Row} {r x : Row}
    (h : x ∈ upsertRow rows r) : x = r ∨ (x ∈ rows ∧ x.key ≠ r.key) := by
  unfold upsertRow at h
  split at h
  · obtain ⟨y, hy, hyx⟩ := List.mem_map.1 h
    by_cases hyk : y.key = r.key
    · left; simp [hyk] at hyx; exact hyx.symm
    · right
      simp [hyk] at hyx
      exact ⟨hyx ▸ hy, hyx ▸ hyk⟩
  · rename_i hc
    rcases List.mem_append.1 h with h1 | h1
    · right
      refine ⟨h1, fun hk => ?_⟩
      exact hc (containsKey_iff.2 ⟨x, h1, hk⟩)
    · left; simpa using h1

theorem getRow_upsert_self {rows : List Row} {r : Row} :
    getRow (upsertRow rows r) r.key = some r := by
  unfold upsertRow getRow
  split
  · rename_i hc
    obtain ⟨x, hx, hxk⟩ := containsKey_iff.1 hc
    clear hc
    induction rows with
    | nil => simp at hx
    | cons a rest ih =>
      rw [List.map_cons]
      by_cases hak : a.key = r.key
      · rw [if_pos hak]
        rw [List.find?_cons_of_pos _ (by simp)]
      · rw [if_neg hak]
        rw [List.find?_cons_of_neg _ (by simp only [decide_eq_true_eq]; exact hak)]
        rcases List.mem_cons.1 hx with h1 | h1
        · exact absurd (h1 ▸ hxk) hak
        · exact ih h1
  · rename_i hc
    induction rows with
    | nil => simp
    | cons a rest ih =>
      have hak : ¬ a.key = r.key := fun hk => hc (containsKey_iff.2 ⟨a, by simp, hk⟩)
      rw [List.cons_append,
          List.find?_cons_of_neg _ (by simp only [decide_eq_true_eq]; exact hak)]
      exact ih (fun hk => by
        obtain ⟨x, hx, hxk⟩ := containsKey_iff.1 hk
        exact hc (containsKey_iff.2 ⟨x, by simp [hx], hxk⟩))

theorem getRow_upsert_ne {rows : List Row} {r : Row} {k : String}
    (h : k ≠ r.key) : getRow (upsertRow rows r) k = getRow rows k := by
  unfold upsertRow getRow
  split
  · rename_i hg
    clear hg
    induction rows with
    | nil => simp
    | cons a rest ih =>
      rw [List.map_cons]
      by_cases hak : a.key = r.key
      · rw [if_pos hak]
        rw [List.find?_cons_of_neg _ (by
              simp only [decide_eq_true_eq]
              exact fun hh => h hh.symm),
            List.find?_cons_of_neg _ (by
              simp only [decide_eq_true_eq]
              intro hh
              exact h (by rw [← hh, hak]))]
        exact ih
      · rw [if_neg hak]
        by_cases hk : a.key = k
        · rw [List.find?_cons_of_pos _ (by simp [hk]),
              List.find?_cons_of_pos _ (by simp [hk])]
        · rw [List.find?_cons_of_neg _ (by simp only [decide_eq_true_eq]; exact hk),
              List.find?_cons_of_neg _ (by simp only [decide_eq_true_eq]; exact hk)]
          exact ih
  · rename_i hg
    clear hg
    induction rows with
    | nil =>
      rw [List.nil_append,
          List.find?_cons_of_neg _ (by
            simp only [decide_eq_true_eq]
            exact fun hh => h hh.symm)]
    | cons a rest ih =>
      rw [List.cons_append]
      by_cases hk : a.key = k
      · rw [List.find?_cons_of_pos _ (by simp [hk]),
            List.find?_cons_of_pos _ (by simp [hk])]
      · rw [List.find?_cons_of_neg _ (by simp only [decide_eq_true_eq]; exact hk),
            List.find?_cons_of_neg _ (by simp only [decide_eq_true_eq]; exact hk)]
        exact ih

theorem getRow_mem {rows : List Row} {k : String} {r : Row}
    (h : getRow rows k = some r) : r ∈ rows ∧ r.key = k := by
  refine ⟨List.mem_of_find?_eq_some h, ?_⟩
  have := List.find?_some h
  simpa using this

theorem upsert_keys_contains {rows : List Row} {r : Row} :
    (upsertRow rows r).map (fun x => x.key) = rows.map (fun x => x.key) ∨
      (upsertRow rows r).map (fun x => x.key) = rows.map (fun x => x.key) ++ [r.key] := by
  unfold upsertRow
  split
  · left
    rw [List.map_map]
    refine List.map_congr_left ?_
    intro x _
    by_cases hxk : x.key = r.key
    · simp [hxk]
    · simp [hxk]
  · right; simp

theorem upsert_nodup {rows : List Row} {r : Row}
    (h : (rows.map (fun x => x.key)).Nodup) :
    ((upsertRow rows r).map (fun x => x.key)).Nodup := by
  unfold upsertRow
  split
  · rw [List.map_map]
    have : (fun x => Row.key x) ∘ (fun x => if x.key = r.key then r else x) =
        fun x : Row => x.key := by
      funext x
      by_cases hxk : x.key = r.key
      · simp [hxk]
      · simp [hxk]
    rw [this]
    exact h
  · rename_i hc
    rw [List.map_append]
    refine List.Nodup.append h (by simp) ?_
    intro k hk1 hk2
    simp at hk2
    subst hk2
    obtain ⟨x, hx, hxk⟩ := List.mem_map.1 hk1
    exact hc (containsKey_iff.2 ⟨x, hx, hxk⟩)

/-! ## Lemmas: one step of the delta scan -/

theorem contains_mem {l : List String} {x : String} :
    l.contains x = true ↔ x ∈ l := by
  simp

theorem processFolder_state (st : ScanSt) (p : String × String) :
    (processFolder st p).env.state = st.env.state := by
  unfold processFolder writeFolder
  split
  · rfl
  · split <;> first | rfl | (split <;> rfl)

theorem processFolder_counts (st : ScanSt) (p : String × String) :
    (processFolder st p).filelog = st.filelog := by
  unfold processFolder writeFolder
  split
  · rfl
  · split <;> first | rfl | (split <;> rfl)

theorem processFolder_seenFolders_mem (st : ScanSt) (p : String × String) (x : String) :
    x ∈ (processFolder st p).seenFolders ↔ x = p.1 ∨ x ∈ st.seenFolders := by
  unfold processFolder
  split
  · rename_i hc
    have : p.1 ∈ st.seenFolders := contains_mem.1 hc
    constructor
    · intro h; exact Or.inr h
    · rintro (h | h)
      · rwa [h]
      · exact h
  · split
    · simp [writeFolder]
    · split <;> simp [writeFolder]

theorem processFolder_seenKeys_mem (st : ScanSt) (p : String × String)
    (hsf : ∀ f ∈ st.seenFolders, f ∈ st.seenKeys) (x : String) :
    x ∈ (processFolder st p).seenKeys ↔ x = p.1 ∨ x ∈ st.seenKeys := by
  unfold processFolder
  split
  · rename_i hc
    have hp : p.1 ∈ st.seenKeys := hsf _ (contains_mem.1 hc)
    constructor
    · intro h; exact Or.inr h
    · rintro (h | h)
      · rwa [h]
      · exact h
  · split
    · simp [writeFolder]
    · split <;> simp [writeFolder]

theorem processFolder_SFsub (st : ScanSt) (p : String × String)
    (hsf : ∀ f ∈ st.seenFolders, f ∈ st.seenKeys) :
    ∀ f ∈ (processFolder st p).seenFolders, f ∈ (processFolder st p).seenKeys := by
  intro f hf
  rw [processFolder_seenKeys_mem st p hsf]
  rcases (processFolder_seenFolders_mem st p f).1 hf with h | h
  · exact Or.inl h
  · exact Or.inr (hsf f h)

theorem processFolder_getRow_ne (st : ScanSt) (p : String × String) {k : String}
    (h : k ≠ p.1) :
    getRow (processFolder st p).env.rows k = getRow st.env.rows k := by
  unfold processFolder writeFolder
  split
  · rfl
  · split
    · exact getRow_upsert_ne (by simpa [folderRow] using h)
    · split
      · exact getRow_upsert_ne (by simpa [folderRow] using h)
      · rfl

theorem processFolder_mem_rows (st : ScanSt) (p : String × String) {x : Row}
    (hx : x ∈ st.env.rows) (h : x.key ≠ p.1) :
    x ∈ (processFolder st p).env.rows := by
  unfold processFolder writeFolder
  split
  · exact hx
  · split
    · exact mem_upsert_of_key_ne hx (by simpa [folderRow] using h)
    · split
      · exact mem_upsert_of_key_ne hx (by simpa [folderRow] using h)
      · exact hx

theorem processFolder_contains_mono (st : ScanSt) (p : String × String) {k : String}
    (h : containsKey st.env.rows k = true) :
    containsKey (processFolder st p).env.rows k = true := by
  unfold processFolder writeFolder
  split
  · exact h
  · split
    · exact containsKey_upsert h
    · split
      · exact containsKey_upsert h
      · exact h

theorem processFolder_rows_source (st : ScanSt) (p : String × String) {x : Row}
    (hx : x ∈ (processFolder st p).env.rows) :
    x ∈ st.env.rows ∨ x.key = p.1 := by
  unfold processFolder writeFolder at hx
  split at hx
  · exact Or.inl hx
  · split at hx
    · rcases mem_upsert_cases hx with h | h
      · right; rw [h]; rfl
      · exact Or.inl h.1
    · split at hx
      · rcases mem_upsert_cases hx with h | h
        · right; rw [h]; rfl
        · exact Or.inl h.1
      · exact Or.inl hx

theorem processFolder_nodup (st : ScanSt) (p : String × String)
    (h : (st.env.rows.map (fun x => x.key)).Nodup) :
    ((processFolder st p).env.rows.map (fun x => x.key)).Nodup := by
  unfold processFolder writeFolder
  split
  · exact h
  · split
    · exact upsert_nodup h
    · split
      · exact upsert_nodup h
      · exact h

/-! ## Lemmas: the ancestor-folder loop -/

theorem foldF_state (ps : List (String × String)) :
    ∀ st : ScanSt, (ps.foldl processFolder st).env.state = st.env.state := by
  induction ps with
  | nil => intro st; rfl
  | cons p ps ih =>
    intro st
    rw [List.foldl_cons, ih, processFolder_state]

theorem foldF_filelog (ps : List (String × String)) :
    ∀ st : ScanSt, (ps.foldl processFolder st).filelog = st.filelog := by
  induction ps with
  | nil => intro st; rfl
  | cons p ps ih =>
    intro st
    rw [List.foldl_cons, ih, processFolder_counts]

theorem foldF_seenFolders_mem (ps : List (String × String)) :
    ∀ (st : ScanSt) (x : String),
      x ∈ (ps.foldl processFolder st).seenFolders ↔
        x ∈ ps.map Prod.fst ∨ x ∈ st.seenFolders := by
  induction ps with
  | nil => intro st x; simp
  | cons p ps ih =>
    intro st x
    rw [List.foldl_cons, ih, processFolder_seenFolders_mem]
    simp only [List.map_cons, List.mem_cons]
    tauto

theorem foldF_SFsub (ps : List (String × String)) :
    ∀ st : ScanSt, (∀ f ∈ st.seenFolders, f ∈ st.seenKeys) →
      ∀ f ∈ (ps.foldl processFolder st).seenFolders,
        f ∈ (ps.foldl processFolder st).seenKeys := by
  induction ps with
  | nil => intro st h; exact h
  | cons p ps ih =>
    intro st h
    exact ih _ (processFolder_SFsub st p h)

theorem foldF_seenKeys_mem (ps : List (String × String)) :
    ∀ (st : ScanSt), (∀ f ∈ st.seenFolders, f ∈ st.seenKeys) →
      ∀ x : String,
        x ∈ (ps.foldl processFolder st).seenKeys ↔
          x ∈ ps.map Prod.fst ∨ x ∈ st.seenKeys := by
  induction ps with
  | nil => intro st _ x; simp
  | cons p ps ih =>
    intro st h x
    rw [List.foldl_cons, ih _ (processFolder_SFsub st p h),
        processFolder_seenKeys_mem st p h]
    simp only [List.map_cons, List.mem_cons]
    tauto

theorem foldF_getRow_ne (ps : List (String × String)) :
    ∀ (st : ScanSt) {k : String}, k ∉ ps.map Prod.fst →
      getRow (ps.foldl processFolder st).env.rows k = getRow st.env.rows k := by
  induction ps with
  | nil => intro st k _; rfl
  | cons p ps ih =>
    intro st k hk
    simp only [List.map_cons, List.mem_cons] at hk
    push_neg at hk
    rw [List.foldl_cons, ih _ hk.2, processFolder_getRow_ne st p hk.1]

theorem foldF_mem_rows (ps : List (String × String)) :
    ∀ (st : ScanSt) {x : Row}, x ∈ st.env.rows → x.key ∉ ps.map Prod.fst →
      x ∈ (ps.foldl processFolder st).env.rows := by
  induction ps with
  | nil => intro st x hx _; exact hx
  | cons p ps ih =>
    intro st x hx hk
    simp only [List.map_cons, List.mem_cons] at hk
    push_neg at hk
    exact ih _ (processFolder_mem_rows st p hx hk.1) hk.2

theorem foldF_contains_mono (ps : List (String × String)) :
    ∀ (st : ScanSt) {k : String}, containsKey st.env.rows k = true →
      containsKey (ps.foldl processFolder st).env.rows k = true := by
  induction ps with
  | nil => intro st k h; exact h
  | cons p ps ih =>
    intro st k h
    exact ih _ (processFolder_contains_mono st p h)

theorem foldF_rows_source (ps : List (String × String)) :
    ∀ (st : ScanSt) {x : Row}, x ∈ (ps.foldl processFolder st).env.rows →
      x ∈ st.env.rows ∨ x.key ∈ ps.map Prod.fst := by
  induction ps with
  | nil => intro st x hx; exact Or.inl hx
  | cons p ps ih =>
    intro st x hx
    rcases ih _ hx with h | h
    · rcases processFolder_rows_source st p h with h1 | h1
      · exact Or.inl h1
      · right; simp [h1]
    · right; simp [h]

theorem foldF_nodup (ps : List (String × String)) :
    ∀ (st : ScanSt), (st.env.rows.map (fun x => x.key)).Nodup →
      ((ps.foldl processFolder st).env.rows.map (fun x => x.key)).Nodup := by
  induction ps with
  | nil => intro st h; exact h
  | cons p ps ih =>
    intro st h
    exact ih _ (processFolder_nodup st p h)

/-! ## Lemmas: the file stage and a whole object step -/

theorem fileStage_state (st : ScanSt) (obj : RemoteObj) :
    (fileStage st obj).env.state = st.env.state := by
  unfold fileStage writeFile
  split
  · rfl
  · split <;> rfl

theorem fileStage_seenKeys (st : ScanSt) (obj : RemoteObj) :
    (fileStage st obj).seenKeys = st.seenKeys := by
  unfold fileStage writeFile
  split
  · rfl
  · split <;> rfl

theorem fileStage_seenFolders (st : ScanSt) (obj : RemoteObj) :
    (fileStage st obj).seenFolders = st.seenFolders := by
  unfold fileStage writeFile
  split
  · rfl
  · split <;> rfl

theorem fileStage_flog (st : ScanSt) (obj : RemoteObj) :
    (fileStage st obj).flog = st.flog := by
  unfold fileStage writeFile
  split
  · rfl
  · split <;> rfl

theorem fileStage_getRow_ne (st : ScanSt) (obj : RemoteObj) {k : String}
    (h : k ≠ obj.key) :
    getRow (fileStage st obj).env.rows k = getRow st.env.rows k := by
  unfold fileStage writeFile
  split
  · exact getRow_upsert_ne (by simpa [fileRow] using h)
  · split
    · exact getRow_upsert_ne (by simpa [fileRow] using h)
    · rfl

theorem fileStage_mem_rows (st : ScanSt) (obj : RemoteObj) {x : Row}
    (hx : x ∈ st.env.rows) (h : x.key ≠ obj.key) :
    x ∈ (fileStage st obj).env.rows := by
  unfold fileStage writeFile
  split
  · exact mem_upsert_of_key_ne hx (by simpa [fileRow] using h)
  · split
    · exact mem_upsert_of_key_ne hx (by simpa [fileRow] using h)
    · exact hx

theorem fileStage_contains_mono (st : ScanSt) (obj : RemoteObj) {k : String}
    (h : containsKey st.env.rows k = true) :
    containsKey (fileStage st obj).env.rows k = true := by
  unfold fileStage writeFile
  split
  · exact containsKey_upsert h
  · split
    · exact containsKey_upsert h
    · exact h

theorem fileStage_rows_source (st : ScanSt) (obj : RemoteObj) {x : Row}
    (hx : x ∈ (fileStage st obj).env.rows) :
    x ∈ st.env.rows ∨ x.key = obj.key := by
  unfold fileStage writeFile at hx
  split at hx
  · rcases mem_upsert_cases hx with h | h
    · right; rw [h]; rfl
    · exact Or.inl h.1
  · split at hx
    · rcases mem_upsert_cases hx with h | h
      · right; rw [h]; rfl
      · exact Or.inl h.1
    · exact Or.inl hx

theorem fileStage_nodup (st : ScanSt) (obj : RemoteObj)
    (h : (st.env.rows.map (fun x => x.key)).Nodup) :
    ((fileStage st obj).env.rows.map (fun x => x.key)).Nodup := by
  unfold fileStage writeFile
  split
  · exact upsert_nodup h
  · split
    · exact upsert_nodup h
    · exact h

theorem processObj_state (st : ScanSt) (obj : RemoteObj) :
    (processObj st obj).env.state = st.env.state := by
  unfold processObj
  rw [fileStage_state, foldF_state]

theorem processObj_seenFolders_mem (st : ScanSt) (obj : RemoteObj) (x : String) :
    x ∈ (processObj st obj).seenFolders ↔
      x ∈ ancKeys obj.key ∨ x ∈ st.seenFolders := by
  unfold processObj
  rw [fileStage_seenFolders, foldF_seenFolders_mem]
  rfl

theorem processObj_SFsub (st : ScanSt) (obj : RemoteObj)
    (hsf : ∀ f ∈ st.seenFolders, f ∈ st.seenKeys) :
    ∀ f ∈ (processObj st obj).seenFolders, f ∈ (processObj st obj).seenKeys := by
  intro f hf
  unfold processObj at hf ⊢
  rw [fileStage_seenFolders] at hf
  simp only [List.mem_cons, fileStage_seenKeys]
  exact Or.inr (foldF_SFsub _ _ hsf f hf)

theorem processObj_seenKeys_mem (st : ScanSt) (obj : RemoteObj)
    (hsf : ∀ f ∈ st.seenFolders, f ∈ st.seenKeys) (x : String) :
    x ∈ (processObj st obj).seenKeys ↔
      x = obj.key ∨ x ∈ ancKeys obj.key ∨ x ∈ st.seenKeys := by
  unfold processObj
  simp only [List.mem_cons, fileStage_seenKeys]
  rw [foldF_seenKeys_mem _ _ hsf]
  rfl

theorem processObj_getRow_ne (st : ScanSt) (obj : RemoteObj) {k : String}
    (h1 : k ≠ obj.key) (h2 : k ∉ ancKeys obj.key) :
    getRow (processObj st obj).env.rows k = getRow st.env.rows k := by
  unfold processObj
  rw [fileStage_getRow_ne _ _ h1, foldF_getRow_ne _ _ h2]

theorem processObj_mem_rows (st : ScanSt) (obj : RemoteObj) {x : Row}
    (hx : x ∈ st.env.rows) (h1 : x.key ≠ obj.key) (h2 : x.key ∉ ancKeys obj.key) :
    x ∈ (processObj st obj).env.rows := by
  unfold processObj
  exact fileStage_mem_rows _ _ (foldF_mem_rows _ _ hx h2) h1

theorem processObj_contains_mono (st : ScanSt) (obj : RemoteObj) {k : String}
    (h : containsKey st.env.rows k = true) :
    containsKey (processObj st obj).env.rows k = true := by
  unfold processObj
  exact fileStage_contains_mono _ _ (foldF_contains_mono _ _ h)

theorem processObj_rows_source (st : ScanSt) (obj : RemoteObj) {x : Row}
    (hx : x ∈ (processObj st obj).env.rows) :
    x ∈ st.env.rows ∨ x.key = obj.key ∨ x.key ∈ ancKeys obj.key := by
  unfold processObj at hx
  rcases fileStage_rows_source _ _ hx with h | h
  · rcases foldF_rows_source _ _ h with h1 | h1
    · exact Or.inl h1
    · exact Or.inr (Or.inr h1)
  · exact Or.inr (Or.inl h)

theorem processObj_nodup (st : ScanSt) (obj : RemoteObj)
    (h : (st.env.rows.map (fun x => x.key)).Nodup) :
    ((processObj st obj).env.rows.map (fun x => x.key)).Nodup := by
  unfold processObj
  exact fileStage_nodup _ _ (foldF_nodup _ _ h)

theorem processFolder_seenKeys_mono (st : ScanSt) (p : String × String) {x : String}
    (h : x ∈ st.seenKeys) : x ∈ (processFolder st p).seenKeys := by
  unfold processFolder
  split
  · exact h
  · split
    · simp [writeFolder, h]
    · split <;> simp [writeFolder, h]

theorem foldF_seenKeys_mono (ps : List (String × String)) :
    ∀ (st : ScanSt) {x : String}, x ∈ st.seenKeys →
      x ∈ (ps.foldl processFolder st).seenKeys := by
  induction ps with
  | nil => intro st x h; exact h
  | cons p ps ih =>
    intro st x h
    exact ih _ (processFolder_seenKeys_mono st p h)

theorem processObj_seenKeys_mono (st : ScanSt) (obj : RemoteObj) {x : String}
    (h : x ∈ st.seenKeys) : x ∈ (processObj st obj).seenKeys := by
  unfold processObj
  simp only [List.mem_cons, fileStage_seenKeys]
  exact Or.inr (foldF_seenKeys_mono _ _ h)

/-! ## Lemmas: the whole delta scan -/

theorem scan_state (objs : List RemoteObj) :
    ∀ st : ScanSt, (objs.foldl processObj st).env.state = st.env.state := by
  induction objs with
  | nil => intro st; rfl
  | cons o objs ih =>
    intro st
    rw [List.foldl_cons, ih, processObj_state]

theorem scan_SFsub (objs : List RemoteObj) :
    ∀ st : ScanSt, (∀ f ∈ st.seenFolders, f ∈ st.seenKeys) →
      ∀ f ∈ (objs.foldl processObj st).seenFolders,
        f ∈ (objs.foldl processObj st).seenKeys := by
  induction objs with
  | nil => intro st h; exact h
  | cons o objs ih =>
    intro st h
    exact ih _ (processObj_SFsub st o h)

theorem scan_seenKeys_mono (objs : List RemoteObj) :
    ∀ (st : ScanSt) {x : String}, x ∈ st.seenKeys →
      x ∈ (objs.foldl processObj st).seenKeys := by
  induction objs with
  | nil => intro st x h; exact h
  | cons o objs ih =>
    intro st x h
    exact ih _ (processObj_seenKeys_mono st o h)

theorem scan_seenKeys_mem (objs : List RemoteObj) :
    ∀ (st : ScanSt), (∀ f ∈ st.seenFolders, f ∈ st.seenKeys) →
      ∀ x : String,
        x ∈ (objs.foldl processObj st).seenKeys ↔
          (∃ o ∈ objs, x = o.key ∨ x ∈ ancKeys o.key) ∨ x ∈ st.seenKeys := by
  induction objs with
  | nil => intro st _ x; simp
  | cons o objs ih =>
    intro st h x
    rw [List.foldl_cons, ih _ (processObj_SFsub st o h),
        processObj_seenKeys_mem st o h]
    simp only [List.mem_cons]
    constructor
    · rintro (⟨o2, ho2, hx⟩ | hx | hx | hx)
      · exact Or.inl ⟨o2, Or.inr ho2, hx⟩
      · exact Or.inl ⟨o, Or.inl rfl, Or.inl hx⟩
      · exact Or.inl ⟨o, Or.inl rfl, Or.inr hx⟩
      · exact Or.inr hx
    · rintro (⟨o2, ho2 | ho2, hx⟩ | hx)
      · subst ho2
        rcases hx with hx | hx
        · exact Or.inr (Or.inl hx)
        · exact Or.inr (Or.inr (Or.inl hx))
      · exact Or.inl ⟨o2, ho2, hx⟩
      · exact Or.inr (Or.inr (Or.inr hx))

theorem scan_contains_mono (objs : List RemoteObj) :
    ∀ (st : ScanSt) {k : String}, containsKey st.env.rows k = true →
      containsKey (objs.foldl processObj st).env.rows k = true := by
  induction objs with
  | nil => intro st k h; exact h
  | cons o objs ih =>
    intro st k h
    exact ih _ (processObj_contains_mono st o h)

theorem scan_rows_source (objs : List RemoteObj) :
    ∀ (st : ScanSt) {x : Row}, x ∈ (objs.foldl processObj st).env.rows →
      x ∈ st.env.rows ∨ ∃ o ∈ objs, x.key = o.key ∨ x.key ∈ ancKeys o.key := by
  induction objs with
  | nil => intro st x hx; exact Or.inl hx
  | cons o objs ih =>
    intro st x hx
    rcases ih _ hx with h | ⟨o2, ho2, h⟩
    · rcases processObj_rows_source st o h with h1 | h1 | h1
      · exact Or.inl h1
      · exact Or.inr ⟨o, by simp, Or.inl h1⟩
      · exact Or.inr ⟨o, by simp, Or.inr h1⟩
    · exact Or.inr ⟨o2, by simp [ho2], h⟩

theorem scan_mem_rows (objs : List RemoteObj) :
    ∀ (st : ScanSt) {x : Row}, x ∈ st.env.rows →
      (∀ o ∈ objs, x.key ≠ o.key ∧ x.key ∉ ancKeys o.key) →
      x ∈ (objs.foldl processObj st).env.rows := by
  induction objs with
  | nil => intro st x hx _; exact hx
  | cons o objs ih =>
    intro st x hx h
    have ho := h o (by simp)
    exact ih _ (processObj_mem_rows st o hx ho.1 ho.2)
      (fun o2 ho2 => h o2 (by simp [ho2]))

theorem scan_getRow_ne (objs : List RemoteObj) :
    ∀ (st : ScanSt) {k : String},
      (∀ o ∈ objs, k ≠ o.key ∧ k ∉ ancKeys o.key) →
      getRow (objs.foldl processObj st).env.rows k = getRow st.env.rows k := by
  induction objs with
  | nil => intro st k _; rfl
  | cons o objs ih =>
    intro st k h
    have ho := h o (by simp)
    rw [List.foldl_cons, ih _ (fun o2 ho2 => h o2 (by simp [ho2])),
        processObj_getRow_ne st o ho.1 ho.2]

theorem scan_nodup (objs : List RemoteObj) :
    ∀ (st : ScanSt), (st.env.rows.map (fun x => x.key)).Nodup →
      ((objs.foldl processObj st).env.rows.map (fun x => x.key)).Nodup := by
  induction objs with
  | nil => intro st h; exact h
  | cons o objs ih =>
    intro st h
    exact ih _ (processObj_nodup st o h)

theorem observedB_iff {objs : List RemoteObj} {x : String} :
    observedB objs x = true ↔ ∃ o ∈ objs, x = o.key ∨ x ∈ ancKeys o.key := by
  unfold observedB
  simp only [Bool.or_eq_true, List.any_eq_true, decide_eq_true_eq,
    contains_mem]
  constructor
  · rintro (⟨o, ho, hx⟩ | ⟨o, ho, hx⟩)
    · exact ⟨o, ho, Or.inl hx.symm⟩
    · exact ⟨o, ho, Or.inr hx⟩
  · rintro ⟨o, ho, hx | hx⟩
    · exact Or.inl ⟨o, ho, hx.symm⟩
    · exact Or.inr ⟨o, ho, hx⟩

theorem refreshScan_seenKeys_mem {objs : List RemoteObj} {env : Env} {x : String} :
    x ∈ (refreshScan objs env).seenKeys ↔ observedB objs x = true := by
  unfold refreshScan
  rw [scan_seenKeys_mem objs (initScan env) (by simp [initScan]), observedB_iff]
  simp [initScan]

/-! ## C1: a failed enumeration deletes nothing -/

/-- C1: when the paginated enumeration raises partway through a delta
refresh, the run returns an error instead of a summary, the scan state is
untouched, no key is deleted (every key present before is still present),
and rows that were not overwritten by upserts from the already-processed
objects are still present byte-for-byte. -/
theorem claim_c1_failed_refresh_no_deletion (objs : List RemoteObj) (env : Env) :
    (refreshIndex objs true env).1 = none ∧
    (refreshIndex objs true env).2.state = env.state ∧
    (∀ r ∈ env.rows, ∃ r2 ∈ (refreshIndex objs true env).2.rows, r2.key = r.key) ∧
    (∀ r ∈ env.rows, r.key ∉ (refreshScan objs env).seenKeys →
      r ∈ (refreshIndex objs true env).2.rows) := by
  have hout : refreshIndex objs true env = (none, (refreshScan objs env).env) := by
    unfold refreshIndex
    simp
  refine ⟨by rw [hout], ?_, ?_, ?_⟩
  · rw [hout]
    exact scan_state objs (initScan env)
  · intro r hr
    rw [hout]
    have hc : containsKey (refreshScan objs env).env.rows r.key = true := by
      refine scan_contains_mono objs (initScan env) ?_
      exact containsKey_iff.2 ⟨r, hr, rfl⟩
    obtain ⟨r2, hr2, hr2k⟩ := containsKey_iff.1 hc
    exact ⟨r2, hr2, hr2k⟩
  · intro r hr hseen
    rw [hout]
    refine scan_mem_rows objs (initScan env) hr ?_
    intro o ho
    constructor
    · intro hk
      apply hseen
      rw [refreshScan_seenKeys_mem, observedB_iff]
      exact ⟨o, ho, Or.inl hk⟩
    · intro hk
      apply hseen
      rw [refreshScan_seenKeys_mem, observedB_iff]
      exact ⟨o, ho, Or.inr hk⟩

theorem claim_c1_failed_refresh_no_deletion_witness :
    (refreshIndex [⟨"a.txt", 3, none, none⟩] true
        { rows := [⟨"b.txt", "b.txt", some "txt", 4, none, none, "t1", "file"⟩],
          state := {}, clock := 5 }).1 = none ∧
    (⟨"b.txt", "b.txt", some "txt", 4, none, none, "t1", "file"⟩ : Row) ∈
      (refreshIndex [⟨"a.txt", 3, none, none⟩] true
        { rows := [⟨"b.txt", "b.txt", some "txt", 4, none, none, "t1", "file"⟩],
          state := {}, clock := 5 }).2.rows :=
  ⟨(claim_c1_failed_refresh_no_deletion [⟨"a.txt", 3, none, none⟩]
      { rows := [⟨"b.txt", "b.txt", some "txt", 4, none, none, "t1", "file"⟩],
        state := {}, clock := 5 }).1,
   (claim_c1_failed_refresh_no_deletion [⟨"a.txt", 3, none, none⟩]
      { rows := [⟨"b.txt", "b.txt", some "txt", 4, none, none, "t1", "file"⟩],
        state := {}, clock := 5 }).2.2.2 _ (by decide) (by decide)⟩

/-! ## C7: pagination clamping -/

/-- C7: the effective limit is clamped into `[1, 200]`, the effective
offset to at least `0`, and a request with `limit = 10000` behaves exactly
as one with `limit = 200`. -/
theorem claim_c7_search_clamp :
    (∀ l : Option Int, 1 ≤ clampLimit l ∧ clampLimit l ≤ 200) ∧
    (∀ o : Option Int, 0 ≤ clampOffset o) ∧
    (∀ (env : Env) (q : Option String) (off : Option Int),
      searchIndexedObjects env { search := q, limit := some 10000, offset := off } =
        searchIndexedObjects env { search := q, limit := some 200, offset := off }) := by
  refine ⟨?_, ?_, ?_⟩
  · intro l
    exact ⟨le_min (le_max_right _ _) (by norm_num), min_le_right _ _⟩
  · intro o
    exact le_max_right _ _
  · intro env q off
    have h : clampLimit (some 10000) = clampLimit (some 200) := by decide
    simp only [searchIndexedObjects, h]

/-! ## C9: scan-state timestamps -/

theorem orNull_of_ne_empty {o : Option String} (h : o ≠ some "") : orNull o = o := by
  cases o with
  | none => rfl
  | some s =>
    have : s ≠ "" := fun hs => h (by rw [hs])
    simp [orNull, this]

theorem nowIso_ne_empty (c : Nat) : nowIso c ≠ "" :=
  mk_cons_ne_empty _ _

/-- C9: a completed rebuild stamps both `lastFullScan` and `lastDeltaScan`
with the same current time; a completed delta refresh stamps only
`lastDeltaScan` and leaves the stored `lastFullScan` exactly as it was. -/
theorem claim_c9_scan_state_stamps :
    (∀ (objs : List RemoteObj) (env : Env), ∃ t,
      ((rebuildIndex objs false env).2).state.last_full_scan = some t ∧
      ((rebuildIndex objs false env).2).state.last_delta_scan = some t) ∧
    (∀ (objs : List RemoteObj) (env : Env), env.state.last_full_scan ≠ some "" →
      ((refreshIndex objs false env).2).state.last_full_scan =
        env.state.last_full_scan ∧
      ∃ t, ((refreshIndex objs false env).2).state.last_delta_scan = some t) := by
  constructor
  · intro objs env
    refine ⟨nowIso (objs.foldl processObjR (initScan { env with rows := [] })).env.clock,
      ?_, ?_⟩ <;>
      simp [rebuildIndex, mergeState, orNull_of_ne_empty, nowIso_ne_empty,
        fun c => orNull_of_ne_empty (o := some (nowIso c))
          (by simp [nowIso_ne_empty c])]
  · intro objs env h
    refine ⟨?_, ⟨nowIso (refreshScan objs env).env.clock, ?_⟩⟩ <;>
      simp [refreshIndex, mergeState, orNull_of_ne_empty h,
        fun c => orNull_of_ne_empty (o := some (nowIso c))
          (by simp [nowIso_ne_empty c])]

theorem claim_c9_scan_state_stamps_witness :
    (({ rows := [], state := { last_full_scan := some "t9" }, clock := 0 } :
        Env).state.last_full_scan ≠ some "") ∧
    ((refreshIndex [] false
        { rows := [], state := { last_full_scan := some "t9" }, clock := 0 }).2).state.last_full_scan =
      some "t9" :=
  ⟨by decide,
   (claim_c9_scan_state_stamps.2 []
      { rows := [], state := { last_full_scan := some "t9" }, clock := 0 }
      (by decide)).1⟩

/-! ## C10: objectCount counts only files -/

theorem countTyp_le_length (rows : List Row) (t : String) :
    countTyp rows t ≤ rows.length := by
  simpa [countTyp] using List.length_filter_le _ rows

theorem countTyp_cons (r : Row) (rest : List Row) (t : String) :
    countTyp (r :: rest) t =
      (if r.typ = t then countTyp rest t + 1 else countTyp rest t) := by
  by_cases h : r.typ = t
  · simp [countTyp, List.filter_cons, h]
  · simp [countTyp, List.filter_cons, h]

theorem countTyp_file_complement (rows : List Row)
    (h : ∀ r ∈ rows, r.typ = "file" ∨ r.typ = "folder") :
    countTyp rows "file" = rows.length - countTyp rows "folder" := by
  induction rows with
  | nil => simp [countTyp]
  | cons r rest ih =>
    have hr := h r (by simp)
    have hrest := ih (fun x hx => h x (by simp [hx]))
    have hle := countTyp_le_length rest "folder"
    rw [countTyp_cons, countTyp_cons, List.length_cons]
    rcases hr with hf | hf
    · rw [if_pos hf, if_neg (show ¬ r.typ = "folder" by rw [hf]; decide)]
      omega
    · rw [if_neg (show ¬ r.typ = "file" by rw [hf]; decide), if_pos hf]
      omega

/-- C10: `getIndexStatus` counts only file-kind entries; under the row
typing discipline the count is the total minus the folder-kind entries, and
it can be strictly smaller than the number of stored entries. -/
theorem claim_c10_objectCount_files_only :
    (∀ env : Env, (getIndexStatus env).objectCount =
      (env.rows.filter (fun r => r.typ = "file")).length) ∧
    (∀ env : Env, (∀ r ∈ env.rows, r.typ = "file" ∨ r.typ = "folder") →
      (getIndexStatus env).objectCount =
        env.rows.length - countTyp env.rows "folder") ∧
    (getIndexStatus { rows := [folderRow ("d/", "d") 0], state := {}, clock := 0 }).objectCount <
      ([folderRow ("d/", "d") 0] : List Row).length :=
  ⟨fun _ => rfl, fun env h => countTyp_file_complement env.rows h, by decide⟩

theorem claim_c10_objectCount_files_only_witness :
    (getIndexStatus { rows := [folderRow ("d/", "d") 0], state := {}, clock := 0 }).objectCount =
      ([folderRow ("d/", "d") 0] : List Row).length -
        countTyp [folderRow ("d/", "d") 0] "folder" :=
  claim_c10_objectCount_files_only.2.1
    { rows := [folderRow ("d/", "d") 0], state := {}, clock := 0 } (by decide)

/-! ## Lemmas: the deletion sweep -/

theorem sweepGo_snd (seen : List String) :
    ∀ (ks : List String) (rows : List Row) (n : Nat),
      (sweepGo seen ks rows n).2 =
        n + (ks.filter (fun k => !(seen.contains k))).length := by
  intro ks
  induction ks with
  | nil => intro rows n; simp [sweepGo]
  | cons k ks ih =>
    intro rows n
    by_cases h : k ∈ seen
    · rw [sweepGo, if_pos (contains_mem.2 h), ih]
      simp [List.filter_cons, h]
    · have hfc : (List.filter (fun x => !(seen.contains x)) (k :: ks)) =
          k :: List.filter (fun x => !(seen.contains x)) ks := by
        simp [List.filter_cons, h]
      rw [sweepGo, if_neg (fun hc => h (contains_mem.1 hc)), ih, hfc]
      simp only [List.length_cons]
      omega

theorem sweepGo_fst (seen : List String) :
    ∀ (ks : List String) (rows : List Row) (n : Nat),
      (sweepGo seen ks rows n).1 =
        rows.filter (fun r => !(ks.contains r.key && !(seen.contains r.key))) := by
  intro ks
  induction ks with
  | nil => intro rows n; simp [sweepGo]
  | cons k ks ih =>
    intro rows n
    by_cases h : k ∈ seen
    · rw [sweepGo, if_pos (contains_mem.2 h), ih]
      refine List.filter_congr ?_
      intro r _
      by_cases hk : r.key = k
      · have hsk : r.key ∈ seen := by rw [hk]; exact h
        by_cases hks : r.key ∈ ks <;> simp [hk, hks, hsk, h]
      · by_cases hks : r.key ∈ ks <;> by_cases hsk : r.key ∈ seen <;>
          simp [hk, hks, hsk, h]
    · rw [sweepGo, if_neg (fun hc => h (contains_mem.1 hc)), ih, List.filter_filter]
      refine List.filter_congr ?_
      intro r _
      by_cases hk : r.key = k
      · have hsk : r.key ∉ seen := by rw [hk]; exact h
        by_cases hks : r.key ∈ ks <;> simp [hk, hks, hsk, h]
      · by_cases hks : r.key ∈ ks <;> by_cases hsk : r.key ∈ seen <;>
          simp [hk, hks, hsk, h]

theorem sweep_fst (rows : List Row) (seen : List String) :
    (sweep rows seen).1 = rows.filter (fun r => seen.contains r.key) := by
  unfold sweep
  rw [sweepGo_fst]
  refine List.filter_congr ?_
  intro r hr
  have hm : r.key ∈ rows.map (fun r => r.key) := List.mem_map.2 ⟨r, hr, rfl⟩
  by_cases hsk : r.key ∈ seen <;> simp [hm, hsk]

theorem sweep_snd (rows : List Row) (seen : List String) :
    (sweep rows seen).2 =
      (rows.filter (fun r => !(seen.contains r.key))).length := by
  unfold sweep
  rw [sweepGo_snd]
  have : (rows.map (fun r => r.key)).filter (fun k => !(seen.contains k)) =
      (rows.filter (fun r => !(seen.contains r.key))).map (fun r => r.key) := by
    rw [List.filter_map]
    rfl
  rw [this]
  simp

/-- The success path of `refreshIndex`, written out with the sweep
evaluated. -/
theorem refreshIndex_ok (objs : List RemoteObj) (env : Env) :
    refreshIndex objs false env =
      (some { added := (refreshScan objs env).added,
              updated := (refreshScan objs env).updated,
              removed := ((refreshScan objs env).env.rows.filter
                (fun r => !((refreshScan objs env).seenKeys.contains r.key))).length,
              files := countTyp ((refreshScan objs env).env.rows.filter
                (fun r => (refreshScan objs env).seenKeys.contains r.key)) "file",
              folders := countTyp ((refreshScan objs env).env.rows.filter
                (fun r => (refreshScan objs env).seenKeys.contains r.key)) "folder" },
       { rows := (refreshScan objs env).env.rows.filter
           (fun r => (refreshScan objs env).seenKeys.contains r.key),
         state := mergeState env.state none
           (some (some (nowIso (refreshScan objs env).env.clock))),
         clock := (refreshScan objs env).env.clock + 1 }) := by
  unfold refreshIndex
  simp only [sweep_fst, sweep_snd]
  rfl

/-! ## C4: the sweep deletes exactly the unobserved keys -/

theorem bool_eq_of_iff {a b : Bool} (h : a = true ↔ b = true) : a = b := by
  cases a <;> cases b <;> simp_all

theorem filter_map_overwrite {rows : List Row} {r : Row}
    (pred : Row → Bool) (hr : pred r = false)
    (hk : ∀ x : Row, x.key = r.key → pred x = false) :
    (rows.map (fun x => if x.key = r.key then r else x)).filter pred =
      rows.filter pred := by
  induction rows with
  | nil => rfl
  | cons a rest ih =>
    rw [List.map_cons]
    by_cases hak : a.key = r.key
    · rw [if_pos hak, List.filter_cons, List.filter_cons, hr, hk a hak]
      simpa using ih
    · rw [if_neg hak, List.filter_cons, List.filter_cons]
      cases hpa : pred a
      · simpa using ih
      · simpa using ih

theorem upsert_filter_unobs {objs : List RemoteObj} {rows : List Row} {r : Row}
    (hw : observedB objs r.key = true) :
    (upsertRow rows r).filter (fun x => !(observedB objs x.key)) =
      rows.filter (fun x => !(observedB objs x.key)) := by
  unfold upsertRow
  split
  · refine filter_map_overwrite _ (by simp [hw]) ?_
    intro x hxk
    rw [hxk]
    simp [hw]
  · rw [List.filter_append]
    simp [hw]

theorem processFolder_filter_unobs {objs : List RemoteObj} (st : ScanSt)
    (p : String × String) (hw : observedB objs p.1 = true) :
    (processFolder st p).env.rows.filter (fun x => !(observedB objs x.key)) =
      st.env.rows.filter (fun x => !(observedB objs x.key)) := by
  unfold processFolder writeFolder
  split
  · rfl
  · split
    · exact upsert_filter_unobs hw
    · split
      · exact upsert_filter_unobs hw
      · rfl

theorem foldF_filter_unobs {objs : List RemoteObj} (ps : List (String × String)) :
    ∀ st : ScanSt, (∀ p ∈ ps, observedB objs p.1 = true) →
      (ps.foldl processFolder st).env.rows.filter (fun x => !(observedB objs x.key)) =
        st.env.rows.filter (fun x => !(observedB objs x.key)) := by
  induction ps with
  | nil => intro st _; rfl
  | cons p ps ih =>
    intro st h
    rw [List.foldl_cons, ih _ (fun q hq => h q (by simp [hq])),
        processFolder_filter_unobs st p (h p (by simp))]

theorem fileStage_filter_unobs {objs : List RemoteObj} (st : ScanSt)
    (obj : RemoteObj) (hw : observedB objs obj.key = true) :
    (fileStage st obj).env.rows.filter (fun x => !(observedB objs x.key)) =
      st.env.rows.filter (fun x => !(observedB objs x.key)) := by
  unfold fileStage writeFile
  split
  · exact upsert_filter_unobs hw
  · split
    · exact upsert_filter_unobs hw
    · rfl

theorem processObj_filter_unobs {objs : List RemoteObj} (st : ScanSt)
    {obj : RemoteObj} (ho : obj ∈ objs) :
    (processObj st obj).env.rows.filter (fun x => !(observedB objs x.key)) =
      st.env.rows.filter (fun x => !(observedB objs x.key)) := by
  unfold processObj
  rw [fileStage_filter_unobs _ _ (observedB_iff.2 ⟨obj, ho, Or.inl rfl⟩),
      foldF_filter_unobs _ _ ?_]
  intro p hp
  refine observedB_iff.2 ⟨obj, ho, Or.inr ?_⟩
  exact List.mem_map.2 ⟨p, hp, rfl⟩

theorem scan_filter_unobs {objs : List RemoteObj} (sub : List RemoteObj) :
    ∀ st : ScanSt, (∀ o ∈ sub, o ∈ objs) →
      ((sub.foldl processObj st).env.rows.filter (fun x => !(observedB objs x.key))) =
        st.env.rows.filter (fun x => !(observedB objs x.key)) := by
  induction sub with
  | nil => intro st _; rfl
  | cons o sub ih =>
    intro st h
    rw [List.foldl_cons, ih _ (fun o2 ho2 => h o2 (by simp [ho2])),
        processObj_filter_unobs st (h o (by simp))]

theorem refreshScan_filter_unobs (objs : List RemoteObj) (env : Env) :
    (refreshScan objs env).env.rows.filter (fun x => !(observedB objs x.key)) =
      env.rows.filter (fun x => !(observedB objs x.key)) :=
  scan_filter_unobs objs (initScan env) (fun _ h => h)

theorem refreshScan_seen_eq_observed (objs : List RemoteObj) (env : Env)
    (k : String) :
    (refreshScan objs env).seenKeys.contains k = observedB objs k := by
  refine bool_eq_of_iff ?_
  rw [contains_mem]
  exact refreshScan_seenKeys_mem

/-- C4: a completed delta refresh deletes exactly the stored keys that were
not observed (neither listed nor synthesized as an ancestor folder), and
reports their number as `removed`; in particular the spec's two-file
example returns `{added 0, updated 0, removed 1, files 1, folders 0}` and
drops `b.txt`. -/
theorem claim_c4_refresh_removes_unobserved :
    (∀ (objs : List RemoteObj) (env : Env) (k : String),
      containsKey env.rows k = true →
      (containsKey (refreshIndex objs false env).2.rows k = true ↔
        observedB objs k = true)) ∧
    (∀ (objs : List RemoteObj) (env : Env) (s : Summary),
      (refreshIndex objs false env).1 = some s →
      s.removed = (env.rows.filter (fun r => !(observedB objs r.key))).length) ∧
    ((refreshIndex [⟨"a.txt", 3, none, none⟩] false
        { rows := [⟨"a.txt", "a.txt", some "txt", 3, none, none, "t0", "file"⟩,
                   ⟨"b.txt", "b.txt", some "txt", 4, none, none, "t1", "file"⟩],
          state := {}, clock := 5 }).1 =
      some { added := 0, updated := 0, removed := 1, files := 1, folders := 0 } ∧
     containsKey (refreshIndex [⟨"a.txt", 3, none, none⟩] false
        { rows := [⟨"a.txt", "a.txt", some "txt", 3, none, none, "t0", "file"⟩,
                   ⟨"b.txt", "b.txt", some "txt", 4, none, none, "t1", "file"⟩],
          state := {}, clock := 5 }).2.rows "b.txt" = false) := by
  refine ⟨?_, ?_, by decide, by decide⟩
  · intro objs env k hk
    rw [refreshIndex_ok]
    constructor
    · intro hc
      obtain ⟨r, hr, hrk⟩ := containsKey_iff.1 hc
      have := List.of_mem_filter hr
      rw [hrk] at this
      rw [← refreshScan_seen_eq_observed objs env k]
      exact this
    · intro hobs
      have hcs : containsKey (refreshScan objs env).env.rows k = true :=
        scan_contains_mono objs (initScan env) hk
      obtain ⟨r, hr, hrk⟩ := containsKey_iff.1 hcs
      refine containsKey_iff.2 ⟨r, ?_, hrk⟩
      refine List.mem_filter.2 ⟨hr, ?_⟩
      rw [hrk, refreshScan_seen_eq_observed objs env k]
      exact hobs
  · intro objs env s hs
    rw [refreshIndex_ok] at hs
    have hs2 := Option.some.inj hs
    have hrem : s.removed = ((refreshScan objs env).env.rows.filter
        (fun r => !((refreshScan objs env).seenKeys.contains r.key))).length := by
      rw [← hs2]
    rw [hrem, ← refreshScan_filter_unobs objs env]
    congr 1
    refine List.filter_congr ?_
    intro r _
    rw [refreshScan_seen_eq_observed objs env r.key]

theorem claim_c4_refresh_removes_unobserved_witness :
    containsKey (refreshIndex [⟨"a.txt", 3, none, none⟩] false
        { rows := [⟨"a.txt", "a.txt", some "txt", 3, none, none, "t0", "file"⟩,
                   ⟨"b.txt", "b.txt", some "txt", 4, none, none, "t1", "file"⟩],
          state := {}, clock := 5 }).2.rows "b.txt" = true ↔
      observedB [⟨"a.txt", 3, none, none⟩] "b.txt" = true :=
  claim_c4_refresh_removes_unobserved.1 [⟨"a.txt", 3, none, none⟩]
    { rows := [⟨"a.txt", "a.txt", some "txt", 3, none, none, "t0", "file"⟩,
               ⟨"b.txt", "b.txt", some "txt", 4, none, none, "t1", "file"⟩],
      state := {}, clock := 5 } "b.txt" (by decide)

/-! ## C8: exactly matching rows are left untouched -/

theorem getRow_of_mem_nodup {rows : List Row} {r : Row} {k : String}
    (hnd : (rows.map (fun x => x.key)).Nodup) (hr : r ∈ rows) (hk : r.key = k) :
    getRow rows k = some r := by
  induction rows with
  | nil => simp at hr
  | cons a rest ih =>
    rw [List.map_cons, List.nodup_cons] at hnd
    rcases List.mem_cons.1 hr with h1 | h1
    · subst h1
      unfold getRow
      rw [List.find?_cons_of_pos _ (by simp [hk])]
    · by_cases hak : a.key = k
      · exfalso
        apply hnd.1
        rw [hak, ← hk]
        exact List.mem_map.2 ⟨r, h1, rfl⟩
      · unfold getRow
        rw [List.find?_cons_of_neg _ (by simp [hak])]
        exact ih hnd.2 h1

theorem writeFolder_P (st : ScanSt) (p : String × String) (d : Decision)
    (h : countersMatchLogs st) : countersMatchLogs (writeFolder st p d) := by
  obtain ⟨ha, hu⟩ := h
  cases d <;>
    (simp [countersMatchLogs, writeFolder, List.filter_cons, ha, hu] <;> omega)

theorem processFolder_P (st : ScanSt) (p : String × String)
    (h : countersMatchLogs st) : countersMatchLogs (processFolder st p) := by
  unfold processFolder
  split
  · exact h
  · split
    · simpa only [countersMatchLogs] using writeFolder_P st p Decision.addedD h
    · split
      · simpa only [countersMatchLogs] using writeFolder_P st p Decision.updatedD h
      · simpa only [countersMatchLogs] using h

theorem foldF_P (ps : List (String × String)) :
    ∀ st : ScanSt, countersMatchLogs st →
      countersMatchLogs (ps.foldl processFolder st) := by
  induction ps with
  | nil => intro st h; exact h
  | cons p ps ih =>
    intro st h
    exact ih _ (processFolder_P st p h)

theorem writeFile_P (st : ScanSt) (obj : RemoteObj) (d : Decision)
    (h : countersMatchLogs st) : countersMatchLogs (writeFile st obj d) := by
  obtain ⟨ha, hu⟩ := h
  cases d <;>
    (simp [countersMatchLogs, writeFile, List.filter_cons, ha, hu] <;> omega)

theorem fileStage_P (st : ScanSt) (obj : RemoteObj)
    (h : countersMatchLogs st) : countersMatchLogs (fileStage st obj) := by
  unfold fileStage
  split
  · exact writeFile_P _ _ _ h
  · split
    · exact writeFile_P _ _ _ h
    · obtain ⟨ha, hu⟩ := h
      constructor <;>
        simp [List.filter_cons, ha, hu]

theorem processObj_P (st : ScanSt) (obj : RemoteObj)
    (h : countersMatchLogs st) : countersMatchLogs (processObj st obj) := by
  unfold processObj
  exact fileStage_P _ _ (foldF_P _ _ h)

theorem scan_P (objs : List RemoteObj) :
    ∀ st : ScanSt, countersMatchLogs st →
      countersMatchLogs (objs.foldl processObj st) := by
  induction objs with
  | nil => intro st h; exact h
  | cons o objs ih =>
    intro st h
    exact ih _ (processObj_P st o h)

theorem refreshScan_P (objs : List RemoteObj) (env : Env) :
    countersMatchLogs (refreshScan objs env) :=
  scan_P objs (initScan env) (by constructor <;> rfl)

theorem processFolder_flog_filter (st : ScanSt) (p : String × String) {q : String}
    (h : q ≠ p.1) :
    (processFolder st p).flog.filter (fun e => e.1 = q) =
      st.flog.filter (fun e => e.1 = q) := by
  unfold processFolder writeFolder
  split
  · rfl
  · split
    · rw [List.filter_cons, if_neg (by simp; exact fun hc => h hc.symm)]
    · split
      · rw [List.filter_cons, if_neg (by simp; exact fun hc => h hc.symm)]
      · rfl

theorem foldF_flog_filter (ps : List (String × String)) {q : String} :
    ∀ st : ScanSt, q ∉ ps.map Prod.fst →
      (ps.foldl processFolder st).flog.filter (fun e => e.1 = q) =
        st.flog.filter (fun e => e.1 = q) := by
  induction ps with
  | nil => intro st _; rfl
  | cons p ps ih =>
    intro st hq
    simp only [List.map_cons, List.mem_cons] at hq
    push_neg at hq
    rw [List.foldl_cons, ih _ hq.2, processFolder_flog_filter st p hq.1]

theorem fileStage_filelog_filter (st : ScanSt) (obj : RemoteObj) {q : String}
    (h : q ≠ obj.key) :
    (fileStage st obj).filelog.filter (fun e => e.1 = q) =
      st.filelog.filter (fun e => e.1 = q) := by
  unfold fileStage writeFile
  split
  · rw [List.filter_cons, if_neg (by simp; exact fun hc => h hc.symm)]
  · split
    · rw [List.filter_cons, if_neg (by simp; exact fun hc => h hc.symm)]
    · rw [List.filter_cons, if_neg (by simp; exact fun hc => h hc.symm)]

theorem processObj_flog_filter (st : ScanSt) (obj : RemoteObj) {q : String}
    (h : q ∉ ancKeys obj.key) :
    (processObj st obj).flog.filter (fun e => e.1 = q) =
      st.flog.filter (fun e => e.1 = q) := by
  unfold processObj
  rw [fileStage_flog, foldF_flog_filter _ _ h]

theorem processObj_filelog_filter (st : ScanSt) (obj : RemoteObj) {q : String}
    (h1 : q ≠ obj.key) :
    (processObj st obj).filelog.filter (fun e => e.1 = q) =
      st.filelog.filter (fun e => e.1 = q) := by
  unfold processObj
  rw [fileStage_filelog_filter _ _ h1, foldF_filelog]

theorem scan_flog_filter (objs2 : List RemoteObj) {q : String} :
    ∀ st : ScanSt, (∀ o ∈ objs2, q ∉ ancKeys o.key) →
      (objs2.foldl processObj st).flog.filter (fun e => e.1 = q) =
        st.flog.filter (fun e => e.1 = q) := by
  induction objs2 with
  | nil => intro st _; rfl
  | cons o objs2 ih =>
    intro st h
    rw [List.foldl_cons, ih _ (fun o2 ho2 => h o2 (by simp [ho2])),
        processObj_flog_filter st o (h o (by simp))]

theorem scan_filelog_filter (objs2 : List RemoteObj) {q : String} :
    ∀ st : ScanSt, (∀ o ∈ objs2, q ≠ o.key) →
      (objs2.foldl processObj st).filelog.filter (fun e => e.1 = q) =
        st.filelog.filter (fun e => e.1 = q) := by
  induction objs2 with
  | nil => intro st _; rfl
  | cons o objs2 ih =>
    intro st h
    rw [List.foldl_cons, ih _ (fun o2 ho2 => h o2 (by simp [ho2])),
        processObj_filelog_filter st o (h o (by simp))]

theorem fileStage_unchanged {st : ScanSt} {obj : RemoteObj} {r : Row}
    (hg : getRow st.env.rows obj.key = some r)
    (h1 : r.typ = "file") (h2 : r.size = obj.size)
    (h3 : r.last_modified = orNull obj.lastModified)
    (h4 : r.etag = orNull obj.etag) :
    fileStage st obj =
      { st with filelog := (obj.key, Decision.unchangedD) :: st.filelog } := by
  unfold fileStage
  rw [hg]
  dsimp only
  rw [if_neg (by simp [h1, h2, h3, h4])]

/-- C8: an observed object whose stored row matches it exactly on kind,
size, modification time and checksum tag causes no write during a
completed delta refresh: the stored row (its `updated_at` included)
survives byte-for-byte, the file stage logs the `unchanged` decision for
that key, the folder stage never touches the key, and the run's counters
always equal the counts of `added`/`updated` decisions in the logs (so the
entry is counted neither as added nor as updated). -/
theorem claim_c8_exact_match_untouched
    (objs : List RemoteObj) (env : Env) (obj : RemoteObj) (r : Row)
    (hnd : (env.rows.map (fun x => x.key)).Nodup)
    (hknd : (objs.map (fun o => o.key)).Nodup)
    (ho : obj ∈ objs)
    (hanc : ∀ o ∈ objs, obj.key ∉ ancKeys o.key)
    (hg : getRow env.rows obj.key = some r)
    (h1 : r.typ = "file") (h2 : r.size = obj.size)
    (h3 : r.last_modified = orNull obj.lastModified)
    (h4 : r.etag = orNull obj.etag) :
    getRow (refreshIndex objs false env).2.rows obj.key = some r ∧
    (refreshScan objs env).filelog.filter (fun e => e.1 = obj.key) =
      [(obj.key, Decision.unchangedD)] ∧
    (refreshScan objs env).flog.filter (fun e => e.1 = obj.key) = [] ∧
    countersMatchLogs (refreshScan objs env) := by
  obtain ⟨before, after, hsplit⟩ := List.append_of_mem ho
  have hmem : ∀ o ∈ before, o ∈ objs := by
    intro o ho2; rw [hsplit]; simp [ho2]
  have hmemA : ∀ o ∈ after, o ∈ objs := by
    intro o ho2; rw [hsplit]; simp [ho2]
  have hknd2 := hknd
  rw [hsplit, List.map_append, List.map_cons] at hknd2
  have hk1 : ∀ o ∈ before, obj.key ≠ o.key := by
    intro o ho2 he
    have := (List.disjoint_of_nodup_append hknd2)
    exact this (List.mem_map.2 ⟨o, ho2, he.symm⟩) (by simp)
  have hk2 : ∀ o ∈ after, obj.key ≠ o.key := by
    intro o ho2 he
    have := (List.nodup_append.1 hknd2).2.1
    rw [List.nodup_cons] at this
    exact this.1 (List.mem_map.2 ⟨o, ho2, he.symm⟩)
  -- the state after the objects listed before `obj`
  have hgB : getRow (before.foldl processObj (initScan env)).env.rows obj.key =
      some r := by
    rw [scan_getRow_ne before (initScan env)
      (fun o ho2 => ⟨hk1 o ho2, hanc o (hmem o ho2)⟩)]
    exact hg
  have hflB : (before.foldl processObj (initScan env)).filelog.filter
      (fun e => e.1 = obj.key) = [] := by
    rw [scan_filelog_filter before (initScan env) (fun o ho2 => hk1 o ho2)]
    rfl
  have hfoB : (before.foldl processObj (initScan env)).flog.filter
      (fun e => e.1 = obj.key) = [] := by
    rw [scan_flog_filter before (initScan env) (fun o ho2 => hanc o (hmem o ho2))]
    rfl
  -- the state right after `obj` itself
  have hgF : getRow ((folderPrefixesForKey obj.key).foldl processFolder
      (before.foldl processObj (initScan env))).env.rows obj.key = some r := by
    rw [foldF_getRow_ne _ _ (hanc obj ho)]
    exact hgB
  have hstep : processObj (before.foldl processObj (initScan env)) obj =
      { ((folderPrefixesForKey obj.key).foldl processFolder
          (before.foldl processObj (initScan env))) with
        filelog := (obj.key, Decision.unchangedD) ::
          ((folderPrefixesForKey obj.key).foldl processFolder
            (before.foldl processObj (initScan env))).filelog,
        seenKeys := obj.key ::
          ((folderPrefixesForKey obj.key).foldl processFolder
            (before.foldl processObj (initScan env))).seenKeys } := by
    simp only [processObj]
    rw [fileStage_unchanged hgF h1 h2 h3 h4]
  have hscan : refreshScan objs env =
      after.foldl processObj (processObj (before.foldl processObj (initScan env)) obj) := by
    unfold refreshScan
    rw [hsplit, List.foldl_append, List.foldl_cons]
  -- carry the three facts across the objects listed after `obj`
  have hg1 : getRow (refreshScan objs env).env.rows obj.key = some r := by
    rw [hscan, scan_getRow_ne after _
      (fun o ho2 => ⟨hk2 o ho2, hanc o (hmemA o ho2)⟩), hstep]
    show getRow ((folderPrefixesForKey obj.key).foldl processFolder
      (before.foldl processObj (initScan env))).env.rows obj.key = some r
    exact hgF
  have hfl1 : (refreshScan objs env).filelog.filter (fun e => e.1 = obj.key) =
      [(obj.key, Decision.unchangedD)] := by
    rw [hscan, scan_filelog_filter after _ (fun o ho2 => hk2 o ho2), hstep]
    show ((obj.key, Decision.unchangedD) ::
      ((folderPrefixesForKey obj.key).foldl processFolder
        (before.foldl processObj (initScan env))).filelog).filter
        (fun e => e.1 = obj.key) = [(obj.key, Decision.unchangedD)]
    rw [List.filter_cons, if_pos (by simp), foldF_filelog, hflB]
  have hfo1 : (refreshScan objs env).flog.filter (fun e => e.1 = obj.key) = [] := by
    rw [hscan, scan_flog_filter after _ (fun o ho2 => hanc o (hmemA o ho2)), hstep]
    show ((folderPrefixesForKey obj.key).foldl processFolder
      (before.foldl processObj (initScan env))).flog.filter
        (fun e => e.1 = obj.key) = []
    rw [foldF_flog_filter _ _ (hanc obj ho), hfoB]
  refine ⟨?_, hfl1, hfo1, refreshScan_P objs env⟩
  -- the sweep keeps the row: its key was observed
  rw [refreshIndex_ok]
  have hndS : ((refreshScan objs env).env.rows.map (fun x => x.key)).Nodup :=
    scan_nodup objs (initScan env) hnd
  obtain ⟨hrmem, hrkey⟩ := getRow_mem hg1
  have hobs : (refreshScan objs env).seenKeys.contains r.key = true := by
    rw [hrkey, refreshScan_seen_eq_observed]
    exact observedB_iff.2 ⟨obj, ho, Or.inl rfl⟩
  have hmemF : r ∈ (refreshScan objs env).env.rows.filter
      (fun x => (refreshScan objs env).seenKeys.contains x.key) :=
    List.mem_filter.2 ⟨hrmem, hobs⟩
  have hndF : (((refreshScan objs env).env.rows.filter
      (fun x => (refreshScan objs env).seenKeys.contains x.key)).map
        (fun x => x.key)).Nodup :=
    List.Nodup.sublist (List.Sublist.map _ (List.filter_sublist _)) hndS
  exact getRow_of_mem_nodup hndF hmemF hrkey

/-- C8 counterexample: a stored row that matches its object exactly (a
zero-byte folder-marker object `a/`) is nevertheless overwritten and
counted as updated, because the folder synthesis pass for `a/b.txt` turns
the row into a folder entry. -/
theorem claim_c8_counterexample_marker :
    getRow [⟨"a/", "a", none, 0, none, none, "x9", "file"⟩] "a/" =
      some ⟨"a/", "a", none, 0, none, none, "x9", "file"⟩ ∧
    (⟨"a/", "a", none, 0, none, none, "x9", "file"⟩ : Row).typ = "file" ∧
    (⟨"a/", "a", none, 0, none, none, "x9", "file"⟩ : Row).size =
      (⟨"a/", 0, none, none⟩ : RemoteObj).size ∧
    (⟨"a/", "a", none, 0, none, none, "x9", "file"⟩ : Row).last_modified =
      orNull (⟨"a/", 0, none, none⟩ : RemoteObj).lastModified ∧
    (⟨"a/", "a", none, 0, none, none, "x9", "file"⟩ : Row).etag =
      orNull (⟨"a/", 0, none, none⟩ : RemoteObj).etag ∧
    (⟨"a/", 0, none, none⟩ : RemoteObj) ∈
      [(⟨"a/", 0, none, none⟩ : RemoteObj), ⟨"a/b.txt", 1, none, none⟩] ∧
    (refreshIndex [⟨"a/", 0, none, none⟩, ⟨"a/b.txt", 1, none, none⟩] false
        { rows := [⟨"a/", "a", none, 0, none, none, "x9", "file"⟩],
          state := {}, clock := 0 }).1 =
      some { added := 1, updated := 1, removed := 0, files := 1, folders := 1 } ∧
    getRow (refreshIndex [⟨"a/", 0, none, none⟩, ⟨"a/b.txt", 1, none, none⟩] false
        { rows := [⟨"a/", "a", none, 0, none, none, "x9", "file"⟩],
          state := {}, clock := 0 }).2.rows "a/" ≠
      some ⟨"a/", "a", none, 0, none, none, "x9", "file"⟩ := by
  decide

theorem claim_c8_exact_match_untouched_witness :
    getRow (refreshIndex [⟨"a.txt", 3, none, none⟩] false
        { rows := [⟨"a.txt", "a.txt", some "txt", 3, none, none, "t0", "file"⟩],
          state := {}, clock := 5 }).2.rows
        (⟨"a.txt", 3, none, none⟩ : RemoteObj).key =
      some ⟨"a.txt", "a.txt", some "txt", 3, none, none, "t0", "file"⟩ :=
  (claim_c8_exact_match_untouched [⟨"a.txt", 3, none, none⟩]
    { rows := [⟨"a.txt", "a.txt", some "txt", 3, none, none, "t0", "file"⟩],
      state := {}, clock := 5 } ⟨"a.txt", 3, none, none⟩
    ⟨"a.txt", "a.txt", some "txt", 3, none, none, "t0", "file"⟩
    (by decide) (by decide) (by decide) (by decide) (by decide)
    (by decide) (by decide) (by decide) (by decide)).1

/-! ## C6: search is substring matching over name, key and extension -/

theorem likeM_cons_lit {c : Char} (h1 : c ≠ '%') (h2 : c ≠ '_') (ps s : List Char) :
    likeM (c :: ps) s =
      (match s with
       | [] => false
       | b :: t => c = b && likeM ps t) := by
  rw [likeM.eq_def]
  split
  · rename_i heq
    simp at heq
  · rename_i heq
    injection heq with hc _
    exact absurd hc h1
  · rename_i heq
    injection heq with hc _
    exact absurd hc h2
  · rename_i hne1 hne2 heq
    injection heq with hc hps
    subst hc
    subst hps
    rfl

theorem likeM_pct_true : ∀ s : List Char, likeM ['%'] s = true := by
  intro s
  induction s with
  | nil => rfl
  | cons c t ih =>
    show (suffixesB (c :: t)).any (likeM []) = true
    rw [suffixesB, List.any_cons]
    have : (suffixesB t).any (likeM []) = true := ih
    simp [this]

theorem likeM_lit : ∀ (n : List Char), (∀ c ∈ n, c ≠ '%' ∧ c ≠ '_') →
    ∀ s : List Char, likeM (n ++ ['%']) s = isPreB n s := by
  intro n
  induction n with
  | nil =>
    intro _ s
    rw [List.nil_append, likeM_pct_true]
    rfl
  | cons c n ih =>
    intro h s
    have hc := h c (by simp)
    rw [List.cons_append, likeM_cons_lit hc.1 hc.2]
    cases s with
    | nil => rfl
    | cons b t =>
      show (c = b && likeM (n ++ ['%']) t) = isPreB (c :: n) (b :: t)
      rw [ih (fun x hx => h x (by simp [hx])) t]
      rfl

theorem list_any_congr {α : Type} {f g : α → Bool} :
    ∀ {l : List α}, (∀ x ∈ l, f x = g x) → l.any f = l.any g := by
  intro l
  induction l with
  | nil => intro _; rfl
  | cons a l ih =>
    intro h
    rw [List.any_cons, List.any_cons, h a (by simp), ih (fun x hx => h x (by simp [hx]))]

theorem isSubB_eq_any (n : List Char) :
    ∀ s : List Char, isSubB n s = (suffixesB s).any (fun t => isPreB n t) := by
  intro s
  induction s with
  | nil => simp [isSubB, suffixesB]
  | cons c t ih =>
    rw [isSubB, suffixesB, List.any_cons, ih]

theorem likeM_sub {n : List Char} (h : ∀ c ∈ n, c ≠ '%' ∧ c ≠ '_') (s : List Char) :
    likeM ('%' :: (n ++ ['%'])) s = isSubB n s := by
  show (suffixesB s).any (likeM (n ++ ['%'])) = isSubB n s
  rw [isSubB_eq_any]
  exact list_any_congr (fun t _ => likeM_lit n h t)

theorem noWildB_spec {q : String} (h : noWildB q = true) :
    ∀ c ∈ q.data, c ≠ '%' ∧ c ≠ '_' := by
  simpa [noWildB] using h

theorem rowMatchesLike_eq_specMatches {q : String}
    (hwild : noWildB (lowerStr q) = true) (r : Row) :
    rowMatchesLike (lowerStr q) r = specMatches q r := by
  have hn := noWildB_spec hwild
  simp only [rowMatchesLike, specMatches, List.cons_append]
  rw [likeM_sub hn, likeM_sub hn]
  cases r.extension with
  | none => rfl
  | some e =>
    dsimp only
    rw [likeM_sub hn]

theorem lowerStr_ne_empty {q : String} (h : q ≠ "") : lowerStr q ≠ "" := by
  obtain ⟨l⟩ := q
  cases l with
  | nil => exact absurd rfl h
  | cons c t => exact mk_cons_ne_empty _ _

theorem lexLtB_irrefl : ∀ a : List Char, lexLtB a a = false := by
  intro a
  induction a with
  | nil => rfl
  | cons x xs ih =>
    rw [lexLtB, if_neg (lt_irrefl x), if_neg (lt_irrefl x)]
    exact ih

theorem lexLtB_asymm : ∀ a b : List Char, lexLtB a b = true → lexLtB b a = false := by
  intro a
  induction a with
  | nil =>
    intro b h
    cases b with
    | nil => exact absurd h (by rw [lexLtB]; simp)
    | cons y ys => rfl
  | cons x xs ih =>
    intro b h
    cases b with
    | nil => exact absurd h (by rw [lexLtB]; simp)
    | cons y ys =>
      rw [lexLtB] at h
      rw [lexLtB]
      by_cases hxy : x < y
      · rw [if_neg (fun hyx => lt_asymm hxy hyx), if_pos hxy]
      · rw [if_neg hxy] at h
        by_cases hyx : y < x
        · rw [if_pos hyx] at h
          exact absurd h (by simp)
        · rw [if_neg hyx] at h
          rw [if_neg hyx, if_neg hxy]
          exact ih ys h

theorem lexLtB_negtrans : ∀ a b c : List Char,
    lexLtB a b = false → lexLtB b c = false → lexLtB a c = false := by
  intro a
  induction a with
  | nil =>
    intro b c hab hbc
    cases b with
    | nil =>
      cases c with
      | nil => rfl
      | cons z zs => exact absurd hbc (by rw [lexLtB]; simp)
    | cons y ys => exact absurd hab (by rw [lexLtB]; simp)
  | cons x xs ih =>
    intro b c hab hbc
    cases b with
    | nil =>
      cases c with
      | nil => rfl
      | cons z zs => exact absurd hbc (by rw [lexLtB]; simp)
    | cons y ys =>
      cases c with
      | nil => rfl
      | cons z zs =>
        rw [lexLtB] at hab hbc ⊢
        by_cases hxy : x < y
        · rw [if_pos hxy] at hab
          exact absurd hab (by simp)
        · rw [if_neg hxy] at hab
          by_cases hyz : y < z
          · rw [if_pos hyz] at hbc
            exact absurd hbc (by simp)
          · rw [if_neg hyz] at hbc
            by_cases hyx : y < x
            · by_cases hzy : z < y
              · have hzx : z < x := lt_trans hzy hyx
                rw [if_neg (fun h => lt_asymm hzx h), if_pos hzx]
              · have hyz2 : y = z := le_antisymm (not_lt.1 hzy) (not_lt.1 hyz)
                subst hyz2
                rw [if_neg hxy, if_pos hyx]
            · rw [if_neg hyx] at hab
              have hxy2 : x = y := le_antisymm (not_lt.1 hyx) (not_lt.1 hxy)
              subst hxy2
              by_cases hzx : z < x
              · rw [if_neg (fun h => lt_asymm hzx h), if_pos hzx]
              · rw [if_neg hzx] at hbc
                have hxz : ¬ x < z := by
                  intro h
                  exact absurd h hyz
                rw [if_neg hxz, if_neg hzx]
                exact ih ys zs hab hbc

theorem mem_insDesc {r y : Row} : ∀ {l : List Row}, y ∈ insDesc r l ↔ y = r ∨ y ∈ l := by
  intro l
  induction l with
  | nil => simp [insDesc]
  | cons x xs ih =>
    rw [insDesc]
    split
    · simp only [List.mem_cons, ih]
      tauto
    · simp only [List.mem_cons]

theorem pairwise_insDesc (r : Row) :
    ∀ l : List Row,
      List.Pairwise (fun a b => lexLtB a.updated_at.data b.updated_at.data = false) l →
      List.Pairwise (fun a b => lexLtB a.updated_at.data b.updated_at.data = false)
        (insDesc r l) := by
  intro l
  induction l with
  | nil => intro _; simp [insDesc]
  | cons x xs ih =>
    intro h
    rw [List.pairwise_cons] at h
    rw [insDesc]
    split
    · rename_i hlt
      rw [List.pairwise_cons]
      constructor
      · intro y hy
        rcases mem_insDesc.1 hy with hy1 | hy1
        · rw [hy1]
          exact lexLtB_asymm _ _ hlt
        · exact h.1 y hy1
      · exact ih h.2
    · rename_i hnlt
      rw [List.pairwise_cons]
      constructor
      · intro y hy
        rcases List.mem_cons.1 hy with hy1 | hy1
        · rw [hy1]
          exact Bool.of_not_eq_true hnlt
        · exact lexLtB_negtrans _ _ _ (Bool.of_not_eq_true hnlt) (h.1 y hy1)
      · exact List.pairwise_cons.2 h

theorem pairwise_sortDesc (rows : List Row) :
    List.Pairwise (fun a b => lexLtB a.updated_at.data b.updated_at.data = false)
      (sortDesc rows) := by
  unfold sortDesc
  induction rows with
  | nil => simp
  | cons r rest ih =>
    rw [List.foldr_cons]
    exact pairwise_insDesc r _ ih

/-- C6 (amended): for a query that is nonempty, has no leading or trailing
whitespace, and contains no `LIKE` wildcard characters, search returns
exactly the entries whose lower-cased name, key or extension contains the
lower-cased query as a substring, ordered by `updated_at` descending and
paginated by the clamped offset/limit, with `total` the number of matches
ignoring pagination. -/
theorem claim_c6_search_substring_match (env : Env) (q : String)
    (limit offset : Option Int)
    (hq : q ≠ "")
    (htrim : trimStr (lowerStr q) = lowerStr q)
    (hwild : noWildB (lowerStr q) = true) :
    (searchIndexedObjects env { search := some q, limit := limit, offset := offset }).total =
      (env.rows.filter (specMatches q)).length ∧
    (searchIndexedObjects env { search := some q, limit := limit, offset := offset }).items =
      (((sortDesc (env.rows.filter (specMatches q))).drop
          (clampOffset offset).toNat).take (clampLimit limit).toNat).map
        (toOut env.clock) ∧
    List.Pairwise (fun a b => lexLtB a.updated_at.data b.updated_at.data = false)
      (sortDesc (env.rows.filter (specMatches q))) := by
  have hfil : env.rows.filter (rowMatchesLike (lowerStr q)) =
      env.rows.filter (specMatches q) :=
    List.filter_congr (fun r _ => rowMatchesLike_eq_specMatches hwild r)
  refine ⟨?_, ?_, pairwise_sortDesc _⟩ <;>
    simp only [searchIndexedObjects] <;>
    rw [if_neg hq, htrim, if_neg (lowerStr_ne_empty hq), hfil]

/-- C6 counterexample: with the non-empty query `"b "` (trailing space),
the sole stored entry does not contain the lower-cased query as a
substring of any field, yet search trims the needle and returns it, with
`total = 1` instead of `0`. -/
theorem claim_c6_counterexample_trailing_space :
    specMatches "b " (⟨"b.txt", "b.txt", some "txt", 4, none, none, "t1", "file"⟩ : Row) = false ∧
    (searchIndexedObjects
        { rows := [⟨"b.txt", "b.txt", some "txt", 4, none, none, "t1", "file"⟩],
          state := {}, clock := 0 }
        { search := some "b ", limit := none, offset := none }).total = 1 ∧
    (searchIndexedObjects
        { rows := [⟨"b.txt", "b.txt", some "txt", 4, none, none, "t1", "file"⟩],
          state := {}, clock := 0 }
        { search := some "b ", limit := none, offset := none }).items =
      [toOut 0 ⟨"b.txt", "b.txt", some "txt", 4, none, none, "t1", "file"⟩] := by
  decide

theorem claim_c6_search_substring_match_witness :
    (searchIndexedObjects
        { rows := [⟨"a.txt", "a.txt", some "txt", 3, none, none, "t0", "file"⟩],
          state := {}, clock := 0 }
        { search := some "a", limit := none, offset := none }).total =
      (([⟨"a.txt", "a.txt", some "txt", 3, none, none, "t0", "file"⟩] : List Row).filter
        (specMatches "a")).length :=
  (claim_c6_search_substring_match
    { rows := [⟨"a.txt", "a.txt", some "txt", 3, none, none, "t0", "file"⟩],
      state := {}, clock := 0 } "a" none none
    (by decide) (by decide) (by decide)).1

/-! ## C3: idempotence of the delta refresh -/

theorem folderOk_folderRow (p : String × String) (t : Nat) : folderOk (folderRow p t) :=
  ⟨rfl, rfl, rfl⟩

theorem fileOk_fileRow (obj : RemoteObj) (t : Nat) : fileOk obj (fileRow obj t) :=
  ⟨rfl, rfl, rfl, rfl⟩

theorem processFolder_noop {st : ScanSt} {p : String × String} {r : Row}
    (hg : getRow st.env.rows p.1 = some r) (hok : folderOk r) :
    (processFolder st p).env = st.env ∧
    (processFolder st p).added = st.added ∧
    (processFolder st p).updated = st.updated := by
  obtain ⟨h1, h2, h3⟩ := hok
  unfold processFolder
  split
  · exact ⟨rfl, rfl, rfl⟩
  · rw [hg]
    dsimp only
    rw [if_neg (by simp [h1, h2, h3])]
    exact ⟨rfl, rfl, rfl⟩

theorem foldF_noop (ps : List (String × String)) :
    ∀ st : ScanSt,
      (∀ p ∈ ps, ∃ r, getRow st.env.rows p.1 = some r ∧ folderOk r) →
      (ps.foldl processFolder st).env = st.env ∧
      (ps.foldl processFolder st).added = st.added ∧
      (ps.foldl processFolder st).updated = st.updated := by
  induction ps with
  | nil => intro st _; exact ⟨rfl, rfl, rfl⟩
  | cons p ps ih =>
    intro st h
    obtain ⟨r, hg, hok⟩ := h p (by simp)
    obtain ⟨he, ha, hu⟩ := processFolder_noop hg hok
    obtain ⟨he2, ha2, hu2⟩ := ih (processFolder st p) (by
      intro q hq
      rw [he]
      exact h q (by simp [hq]))
    rw [List.foldl_cons]
    exact ⟨he2.trans he, ha2.trans ha, hu2.trans hu⟩

theorem fileStage_noop {st : ScanSt} {obj : RemoteObj} {r : Row}
    (hg : getRow st.env.rows obj.key = some r) (hok : fileOk obj r) :
    (fileStage st obj).env = st.env ∧
    (fileStage st obj).added = st.added ∧
    (fileStage st obj).updated = st.updated := by
  obtain ⟨h1, h2, h3, h4⟩ := hok
  rw [fileStage_unchanged hg h1 h2 h3 h4]
  exact ⟨rfl, rfl, rfl⟩

theorem processObj_noop {st : ScanSt} {obj : RemoteObj}
    (hf : ∃ r, getRow st.env.rows obj.key = some r ∧ fileOk obj r)
    (hps : ∀ p ∈ folderPrefixesForKey obj.key,
      ∃ r, getRow st.env.rows p.1 = some r ∧ folderOk r) :
    (processObj st obj).env = st.env ∧
    (processObj st obj).added = st.added ∧
    (processObj st obj).updated = st.updated := by
  obtain ⟨r, hg, hok⟩ := hf
  obtain ⟨he, ha, hu⟩ := foldF_noop _ st hps
  obtain ⟨he2, ha2, hu2⟩ :=
    @fileStage_noop ((folderPrefixesForKey obj.key).foldl processFolder st) obj r
      (by rw [he]; exact hg) hok
  unfold processObj
  exact ⟨he2.trans he, ha2.trans ha, hu2.trans hu⟩

theorem scan_noop (objs2 : List RemoteObj) :
    ∀ st : ScanSt,
      (∀ o ∈ objs2,
        (∃ r, getRow st.env.rows o.key = some r ∧ fileOk o r) ∧
        (∀ p ∈ folderPrefixesForKey o.key,
          ∃ r, getRow st.env.rows p.1 = some r ∧ folderOk r)) →
      (objs2.foldl processObj st).env = st.env ∧
      (objs2.foldl processObj st).added = st.added ∧
      (objs2.foldl processObj st).updated = st.updated := by
  induction objs2 with
  | nil => intro st _; exact ⟨rfl, rfl, rfl⟩
  | cons o objs2 ih =>
    intro st h
    obtain ⟨he, ha, hu⟩ := processObj_noop (h o (by simp)).1 (h o (by simp)).2
    obtain ⟨he2, ha2, hu2⟩ := ih (processObj st o) (by
      intro o2 ho2
      rw [he]
      exact h o2 (by simp [ho2]))
    rw [List.foldl_cons]
    exact ⟨he2.trans he, ha2.trans ha, hu2.trans hu⟩

/-- A second refresh over a canonical store counts nothing. -/
theorem refresh_noop_of_canonical (objs : List RemoteObj) (env1 : Env)
    (hc : storeCanonical objs env1.rows) :
    ∀ s : Summary, (refreshIndex objs false env1).1 = some s →
      s.added = 0 ∧ s.updated = 0 ∧ s.removed = 0 := by
  obtain ⟨h1, h2, h3⟩ := hc
  intro s hs
  rw [refreshIndex_ok] at hs
  have hs2 := Option.some.inj hs
  have hscan := scan_noop objs (initScan env1) (fun o ho => ⟨h1 o ho, h2 o ho⟩)
  have hrows : (refreshScan objs env1).env.rows = env1.rows :=
    congrArg Env.rows hscan.1
  have hfil : (refreshScan objs env1).env.rows.filter
      (fun r => !((refreshScan objs env1).seenKeys.contains r.key)) = [] := by
    rw [hrows]
    refine List.filter_eq_nil_iff.2 ?_
    intro r hr
    rw [refreshScan_seen_eq_observed objs env1 r.key, h3 r hr]
    simp
  rw [← hs2]
  refine ⟨hscan.2.1, hscan.2.2, ?_⟩
  show ((refreshScan objs env1).env.rows.filter
      (fun r => !((refreshScan objs env1).seenKeys.contains r.key))).length = 0
  rw [hfil]
  rfl

/-- Push a row fact through the deletion sweep: an observed key keeps its
row. -/
theorem getRow_filter_seen {objs : List RemoteObj} {env : Env} {k : String} {r : Row}
    (hnd : (env.rows.map (fun x => x.key)).Nodup)
    (hg : getRow (refreshScan objs env).env.rows k = some r)
    (hobs : observedB objs k = true) :
    getRow (refreshIndex objs false env).2.rows k = some r := by
  rw [refreshIndex_ok]
  have hndS : ((refreshScan objs env).env.rows.map (fun x => x.key)).Nodup :=
    scan_nodup objs (initScan env) hnd
  obtain ⟨hrmem, hrkey⟩ := getRow_mem hg
  have hseen : (refreshScan objs env).seenKeys.contains r.key = true := by
    rw [hrkey, refreshScan_seen_eq_observed]
    exact hobs
  have hmemF : r ∈ (refreshScan objs env).env.rows.filter
      (fun x => (refreshScan objs env).seenKeys.contains x.key) :=
    List.mem_filter.2 ⟨hrmem, hseen⟩
  have hndF : (((refreshScan objs env).env.rows.filter
      (fun x => (refreshScan objs env).seenKeys.contains x.key)).map
        (fun x => x.key)).Nodup :=
    List.Nodup.sublist (List.Sublist.map _ (List.filter_sublist _)) hndS
  exact getRow_of_mem_nodup hndF hmemF hrkey

theorem fileStage_getRow_self (st : ScanSt) (obj : RemoteObj) :
    ∃ r, getRow (fileStage st obj).env.rows obj.key = some r ∧ fileOk obj r := by
  unfold fileStage writeFile
  split
  · exact ⟨fileRow obj st.env.clock, getRow_upsert_self, fileOk_fileRow obj _⟩
  · rename_i r heq
    split
    · exact ⟨fileRow obj st.env.clock, getRow_upsert_self, fileOk_fileRow obj _⟩
    · rename_i hcond
      push_neg at hcond
      exact ⟨r, heq, hcond.1, hcond.2.1, hcond.2.2.1, hcond.2.2.2⟩

theorem refresh_file_row (objs : List RemoteObj) (env : Env)
    (hknd : (objs.map (fun o => o.key)).Nodup)
    (hsep : ∀ o ∈ objs, ∀ o2 ∈ objs, o.key ∉ ancKeys o2.key) :
    ∀ o ∈ objs, ∃ r, getRow (refreshScan objs env).env.rows o.key = some r ∧
      fileOk o r := by
  intro o ho
  obtain ⟨before, after, hsplit⟩ := List.append_of_mem ho
  have hknd2 := hknd
  rw [hsplit, List.map_append, List.map_cons] at hknd2
  have hk2 : ∀ o2 ∈ after, o.key ≠ o2.key := by
    intro o2 ho2 he
    have := (List.nodup_append.1 hknd2).2.1
    rw [List.nodup_cons] at this
    exact this.1 (List.mem_map.2 ⟨o2, ho2, he.symm⟩)
  have hmemA : ∀ o2 ∈ after, o2 ∈ objs := by
    intro o2 ho2; rw [hsplit]; simp [ho2]
  have hscan : refreshScan objs env =
      after.foldl processObj
        (processObj (before.foldl processObj (initScan env)) o) := by
    unfold refreshScan
    rw [hsplit, List.foldl_append, List.foldl_cons]
  obtain ⟨r, hg, hok⟩ := fileStage_getRow_self
    ((folderPrefixesForKey o.key).foldl processFolder
      (before.foldl processObj (initScan env))) o
  refine ⟨r, ?_, hok⟩
  rw [hscan, scan_getRow_ne after _
    (fun o2 ho2 => ⟨hk2 o2 ho2, hsep o ho o2 (hmemA o2 ho2)⟩)]
  exact hg

theorem processFolder_getRow_self (st : ScanSt) (p : String × String)
    (hprev : p.1 ∈ st.seenFolders →
      ∃ r, getRow st.env.rows p.1 = some r ∧ folderOk r) :
    ∃ r, getRow (processFolder st p).env.rows p.1 = some r ∧ folderOk r := by
  unfold processFolder
  split
  · rename_i hc
    exact hprev (contains_mem.1 hc)
  · split
    · exact ⟨folderRow p st.env.clock, getRow_upsert_self, folderOk_folderRow p _⟩
    · rename_i r heq
      split
      · exact ⟨folderRow p st.env.clock, getRow_upsert_self, folderOk_folderRow p _⟩
      · rename_i hcond
        push_neg at hcond
        exact ⟨r, heq, hcond.1, hcond.2.1, hcond.2.2⟩

theorem processFolder_folderJ (st : ScanSt) (p : String × String)
    (hJ : ∀ f ∈ st.seenFolders, ∃ r, getRow st.env.rows f = some r ∧ folderOk r) :
    ∀ f ∈ (processFolder st p).seenFolders,
      ∃ r, getRow (processFolder st p).env.rows f = some r ∧ folderOk r := by
  intro f hf
  by_cases hfp : f = p.1
  · subst hfp
    exact processFolder_getRow_self st p (fun hm => hJ _ hm)
  · rw [processFolder_getRow_ne st p hfp]
    rcases (processFolder_seenFolders_mem st p f).1 hf with h1 | h1
    · exact absurd h1 hfp
    · exact hJ f h1

theorem foldF_folderJ (ps : List (String × String)) :
    ∀ st : ScanSt,
      (∀ f ∈ st.seenFolders, ∃ r, getRow st.env.rows f = some r ∧ folderOk r) →
      ∀ f ∈ (ps.foldl processFolder st).seenFolders,
        ∃ r, getRow (ps.foldl processFolder st).env.rows f = some r ∧ folderOk r := by
  induction ps with
  | nil => intro st h; exact h
  | cons p ps ih =>
    intro st h
    exact ih _ (processFolder_folderJ st p h)

theorem fileStage_folderJ (st : ScanSt) (obj : RemoteObj)
    (hno : obj.key ∉ st.seenFolders)
    (hJ : ∀ f ∈ st.seenFolders, ∃ r, getRow st.env.rows f = some r ∧ folderOk r) :
    ∀ f ∈ (fileStage st obj).seenFolders,
      ∃ r, getRow (fileStage st obj).env.rows f = some r ∧ folderOk r := by
  intro f hf
  rw [fileStage_seenFolders] at hf
  have hfo : f ≠ obj.key := fun he => hno (he ▸ hf)
  rw [fileStage_getRow_ne st obj hfo]
  exact hJ f hf

theorem processObj_folderJB (objs : List RemoteObj) (st : ScanSt) {obj : RemoteObj}
    (ho : obj ∈ objs)
    (hsep : ∀ o ∈ objs, ∀ o2 ∈ objs, o.key ∉ ancKeys o2.key)
    (hB : ∀ f ∈ st.seenFolders, ∃ o2 ∈ objs, f ∈ ancKeys o2.key)
    (hJ : ∀ f ∈ st.seenFolders, ∃ r, getRow st.env.rows f = some r ∧ folderOk r) :
    (∀ f ∈ (processObj st obj).seenFolders, ∃ o2 ∈ objs, f ∈ ancKeys o2.key) ∧
    (∀ f ∈ (processObj st obj).seenFolders,
      ∃ r, getRow (processObj st obj).env.rows f = some r ∧ folderOk r) := by
  have hBF : ∀ f ∈ ((folderPrefixesForKey obj.key).foldl processFolder st).seenFolders,
      ∃ o2 ∈ objs, f ∈ ancKeys o2.key := by
    intro f hf
    rw [foldF_seenFolders_mem] at hf
    rcases hf with h1 | h1
    · exact ⟨obj, ho, h1⟩
    · exact hB f h1
  have hJF := foldF_folderJ (folderPrefixesForKey obj.key) st hJ
  have hno : obj.key ∉
      ((folderPrefixesForKey obj.key).foldl processFolder st).seenFolders := by
    intro hmem
    obtain ⟨o2, ho2, hanc⟩ := hBF obj.key hmem
    exact hsep obj ho o2 ho2 hanc
  constructor
  · intro f hf
    rw [processObj_seenFolders_mem] at hf
    rcases hf with h1 | h1
    · exact ⟨obj, ho, h1⟩
    · exact hB f h1
  · intro f hf
    exact fileStage_folderJ _ obj hno hJF f hf

theorem scan_folderJB (objs : List RemoteObj)
    (hsep : ∀ o ∈ objs, ∀ o2 ∈ objs, o.key ∉ ancKeys o2.key) :
    ∀ (sub : List RemoteObj), (∀ o ∈ sub, o ∈ objs) →
      ∀ st : ScanSt,
        (∀ f ∈ st.seenFolders, ∃ o2 ∈ objs, f ∈ ancKeys o2.key) →
        (∀ f ∈ st.seenFolders, ∃ r, getRow st.env.rows f = some r ∧ folderOk r) →
        (∀ f ∈ (sub.foldl processObj st).seenFolders, ∃ o2 ∈ objs, f ∈ ancKeys o2.key) ∧
        (∀ f ∈ (sub.foldl processObj st).seenFolders,
          ∃ r, getRow (sub.foldl processObj st).env.rows f = some r ∧ folderOk r) := by
  intro sub
  induction sub with
  | nil => intro _ st hB hJ; exact ⟨hB, hJ⟩
  | cons o sub ih =>
    intro hmem st hB hJ
    obtain ⟨hB2, hJ2⟩ := processObj_folderJB objs st (hmem o (by simp)) hsep hB hJ
    exact ih (fun o2 ho2 => hmem o2 (by simp [ho2])) (processObj st o) hB2 hJ2

theorem scan_seenFolders_mem (objs2 : List RemoteObj) :
    ∀ (st : ScanSt) (x : String),
      x ∈ (objs2.foldl processObj st).seenFolders ↔
        (∃ o ∈ objs2, x ∈ ancKeys o.key) ∨ x ∈ st.seenFolders := by
  induction objs2 with
  | nil => intro st x; simp
  | cons o objs2 ih =>
    intro st x
    rw [List.foldl_cons, ih, processObj_seenFolders_mem]
    simp only [List.mem_cons]
    constructor
    · rintro (⟨o2, ho2, hx⟩ | hx | hx)
      · exact Or.inl ⟨o2, Or.inr ho2, hx⟩
      · exact Or.inl ⟨o, Or.inl rfl, hx⟩
      · exact Or.inr hx
    · rintro (⟨o2, ho2 | ho2, hx⟩ | hx)
      · subst ho2
        exact Or.inr (Or.inl hx)
      · exact Or.inl ⟨o2, ho2, hx⟩
      · exact Or.inr (Or.inr hx)

theorem refresh_folder_rows (objs : List RemoteObj) (env : Env)
    (hsep : ∀ o ∈ objs, ∀ o2 ∈ objs, o.key ∉ ancKeys o2.key) :
    ∀ o ∈ objs, ∀ p ∈ folderPrefixesForKey o.key,
      ∃ r, getRow (refreshScan objs env).env.rows p.1 = some r ∧ folderOk r := by
  intro o ho p hp
  have hJB := scan_folderJB objs hsep objs (fun _ h => h) (initScan env)
    (by intro f hf; simp [initScan] at hf) (by intro f hf; simp [initScan] at hf)
  have hpm : p.1 ∈ (refreshScan objs env).seenFolders := by
    unfold refreshScan
    rw [scan_seenFolders_mem]
    exact Or.inl ⟨o, ho, List.mem_map.2 ⟨p, hp, rfl⟩⟩
  exact hJB.2 p.1 hpm

/-- A completed delta refresh leaves the store canonical for its listing. -/
theorem refresh_establishes_canonical (objs : List RemoteObj) (env : Env)
    (hnd : (env.rows.map (fun x => x.key)).Nodup)
    (hknd : (objs.map (fun o => o.key)).Nodup)
    (hsep : ∀ o ∈ objs, ∀ o2 ∈ objs, o.key ∉ ancKeys o2.key) :
    storeCanonical objs (refreshIndex objs false env).2.rows := by
  refine ⟨?_, ?_, ?_⟩
  · intro o ho
    obtain ⟨r, hg, hok⟩ := refresh_file_row objs env hknd hsep o ho
    exact ⟨r, getRow_filter_seen hnd hg (observedB_iff.2 ⟨o, ho, Or.inl rfl⟩), hok⟩
  · intro o ho p hp
    obtain ⟨r, hg, hok⟩ := refresh_folder_rows objs env hsep o ho p hp
    refine ⟨r, getRow_filter_seen hnd hg (observedB_iff.2 ⟨o, ho, Or.inr ?_⟩), hok⟩
    exact List.mem_map.2 ⟨p, hp, rfl⟩
  · intro r hr
    rw [refreshIndex_ok] at hr
    have := List.of_mem_filter hr
    rwa [refreshScan_seen_eq_observed] at this

/-- C3 (amended): when no listed key is also a synthesized ancestor-folder
key of a listed key (no folder-marker object with children), and keys are
unique, running the delta refresh twice with the remote unchanged makes
the second run report `added = 0`, `updated = 0`, `removed = 0`. -/
theorem claim_c3_refresh_idempotent (objs : List RemoteObj) (env : Env)
    (hnd : (env.rows.map (fun x => x.key)).Nodup)
    (hknd : (objs.map (fun o => o.key)).Nodup)
    (hsep : ∀ o ∈ objs, ∀ o2 ∈ objs, o.key ∉ ancKeys o2.key) :
    ∀ s2 : Summary,
      (refreshIndex objs false (refreshIndex objs false env).2).1 = some s2 →
      s2.added = 0 ∧ s2.updated = 0 ∧ s2.removed = 0 :=
  refresh_noop_of_canonical objs (refreshIndex objs false env).2
    (refresh_establishes_canonical objs env hnd hknd hsep)

/-- C3 counterexample: with a folder-marker object `a/` and its child
`a/b.txt` (both really listed by S3 for buckets whose folders were created
through the UI), the second of two identical refreshes still reports
`updated = 2`: the marker row flips between file and folder on every
run. -/
theorem claim_c3_counterexample_marker :
    (refreshIndex [⟨"a/", 0, none, none⟩, ⟨"a/b.txt", 1, none, none⟩] false
        ((refreshIndex [⟨"a/", 0, none, none⟩, ⟨"a/b.txt", 1, none, none⟩] false
          ⟨[], {}, 0⟩).2)).1 =
      some { added := 0, updated := 2, removed := 0, files := 1, folders := 1 } ∧
    ∀ s2 : Summary,
      (refreshIndex [⟨"a/", 0, none, none⟩, ⟨"a/b.txt", 1, none, none⟩] false
          ((refreshIndex [⟨"a/", 0, none, none⟩, ⟨"a/b.txt", 1, none, none⟩] false
            ⟨[], {}, 0⟩).2)).1 = some s2 →
      ¬ s2.updated = 0 := by
  constructor
  · decide
  · intro s2 hs2
    have : s2 = { added := 0, updated := 2, removed := 0, files := 1, folders := 1 } := by
      have h := hs2.symm.trans (by decide :
        (refreshIndex [⟨"a/", 0, none, none⟩, ⟨"a/b.txt", 1, none, none⟩] false
            ((refreshIndex [⟨"a/", 0, none, none⟩, ⟨"a/b.txt", 1, none, none⟩] false
              ⟨[], {}, 0⟩).2)).1 =
          some { added := 0, updated := 2, removed := 0, files := 1, folders := 1 })
      exact Option.some.inj h
    rw [this]
    decide

theorem claim_c3_refresh_idempotent_witness :
    ({ added := 0, updated := 0, removed := 0, files := 1, folders := 0 } :
        Summary).added = 0 ∧
    ({ added := 0, updated := 0, removed := 0, files := 1, folders := 0 } :
        Summary).updated = 0 ∧
    ({ added := 0, updated := 0, removed := 0, files := 1, folders := 0 } :
        Summary).removed = 0 :=
  claim_c3_refresh_idempotent [⟨"a.txt", 3, none, none⟩] ⟨[], {}, 0⟩
    (by decide) (by decide) (by decide)
    { added := 0, updated := 0, removed := 0, files := 1, folders := 0 }
    (by decide)

/-! ## C2: ancestor folders exist after a completed scan

Order and prefix groundwork on character lists. -/

theorem lexLtB_trans : ∀ a b c : List Char,
    lexLtB a b = true → lexLtB b c = true → lexLtB a c = true := by
  intro a
  induction a with
  | nil =>
    intro b c hab hbc
    cases b with
    | nil => exact absurd hab (by rw [lexLtB]; simp)
    | cons y ys =>
      cases c with
      | nil => exact absurd hbc (by rw [lexLtB]; simp)
      | cons z zs => rw [lexLtB]
  | cons x xs ih =>
    intro b c hab hbc
    cases b with
    | nil => exact absurd hab (by rw [lexLtB]; simp)
    | cons y ys =>
      cases c with
      | nil => exact absurd hbc (by rw [lexLtB]; simp)
      | cons z zs =>
        rw [lexLtB] at hab hbc ⊢
        by_cases hxy : x < y
        · by_cases hyz : y < z
          · rw [if_pos (lt_trans hxy hyz)]
          · rw [if_neg hyz] at hbc
            by_cases hzy : z < y
            · rw [if_pos hzy] at hbc
              exact absurd hbc (by simp)
            · have : y = z := le_antisymm (not_lt.1 hzy) (not_lt.1 hyz)
              subst this
              rw [if_pos hxy]
        · rw [if_neg hxy] at hab
          by_cases hyx : y < x
          · rw [if_pos hyx] at hab
            exact absurd hab (by simp)
          · rw [if_neg hyx] at hab
            have hxy2 : x = y := le_antisymm (not_lt.1 hyx) (not_lt.1 hxy)
            subst hxy2
            by_cases hxz : x < z
            · rw [if_pos hxz]
            · rw [if_neg hxz] at hbc ⊢
              by_cases hzx : z < x
              · rw [if_pos hzx] at hbc
                exact absurd hbc (by simp)
              · rw [if_neg hzx] at hbc ⊢
                exact ih ys zs hab hbc

theorem isPreB_refl : ∀ p : List Char, isPreB p p = true := by
  intro p
  induction p with
  | nil => rfl
  | cons a p ih => simp [isPreB, ih]

theorem isPreB_iff_exists : ∀ (p s : List Char),
    isPreB p s = true ↔ ∃ t, s = p ++ t := by
  intro p
  induction p with
  | nil => intro s; simp [isPreB]
  | cons a p ih =>
    intro s
    cases s with
    | nil =>
      simp [isPreB]
    | cons b t =>
      rw [isPreB, Bool.and_eq_true, decide_eq_true_eq, ih]
      constructor
      · rintro ⟨hab, u, hu⟩
        exact ⟨u, by rw [hab, hu]; rfl⟩
      · rintro ⟨u, hu⟩
        injection hu with h1 h2
        exact ⟨h1.symm, u, h2⟩

theorem isPreB_subset {p s : List Char} (h : isPreB p s = true) :
    ∀ x ∈ p, x ∈ s := by
  obtain ⟨t, ht⟩ := (isPreB_iff_exists p s).1 h
  intro x hx
  rw [ht]
  exact List.mem_append.2 (Or.inl hx)

theorem strictPre_lexLt : ∀ p s : List Char,
    isPreB p s = true → p ≠ s → lexLtB p s = true := by
  intro p
  induction p with
  | nil =>
    intro s _ hne
    cases s with
    | nil => exact absurd rfl hne
    | cons b t => rw [lexLtB]
  | cons a p ih =>
    intro s hpre hne
    cases s with
    | nil => exact absurd hpre (by rw [isPreB]; simp)
    | cons b t =>
      rw [isPreB, Bool.and_eq_true, decide_eq_true_eq] at hpre
      obtain ⟨hab, hpre2⟩ := hpre
      subst hab
      rw [lexLtB, if_neg (lt_irrefl a), if_neg (lt_irrefl a)]
      refine ih t hpre2 ?_
      intro he
      exact hne (by rw [he])

theorem getLast_eq_mem : ∀ {l : List Char} {c : Char},
    l.getLast? = some c → c ∈ l := by
  intro l
  induction l with
  | nil => intro c h; simp at h
  | cons a rest ih =>
    intro c h
    cases rest with
    | nil =>
      simp at h
      simp [h]
    | cons b r2 =>
      rw [List.getLast?_cons_cons] at h
      simp [ih h]

theorem splitSlash_ne_nil : ∀ cs : List Char, splitSlash cs ≠ [] := by
  intro cs
  cases cs with
  | nil => simp [splitSlash]
  | cons c rest =>
    rw [splitSlash]
    split
    · simp
    · split <;> simp

theorem splitSlash_no_sep : ∀ cs : List Char, '/' ∉ cs → splitSlash cs = [cs] := by
  intro cs
  induction cs with
  | nil => intro _; rfl
  | cons c rest ih =>
    intro h
    have hc : ¬ c = '/' := fun he => h (by simp [he])
    have hr : '/' ∉ rest := fun hm => h (by simp [hm])
    rw [splitSlash, if_neg hc, ih hr]

theorem splitSlash_decomp : ∀ cs : List Char, '/' ∈ cs →
    ∃ s1 cs', cs = s1 ++ '/' :: cs' ∧ ('/' : Char) ∉ s1 ∧
      splitSlash cs = s1 :: splitSlash cs' := by
  intro cs
  induction cs with
  | nil => intro h; simp at h
  | cons c rest ih =>
    intro h
    by_cases hc : c = '/'
    · subst hc
      exact ⟨[], rest, rfl, by simp, by rw [splitSlash, if_pos rfl]⟩
    · have hrest : '/' ∈ rest := by
        rcases List.mem_cons.1 h with h1 | h1
        · exact absurd h1.symm hc
        · exact h1
      obtain ⟨s1, cs', heq, hns, hsp⟩ := ih hrest
      refine ⟨c :: s1, cs', by rw [List.cons_append, ← heq], ?_, ?_⟩
      · intro hm
        rcases List.mem_cons.1 hm with h1 | h1
        · exact hc h1.symm
        · exact hns h1
      · rw [splitSlash, if_neg hc, hsp]

theorem splitSlash_single {cs t : List Char} (h : splitSlash cs = [t]) :
    t = cs ∧ '/' ∉ cs := by
  by_cases hm : '/' ∈ cs
  · obtain ⟨s1, cs', _, _, hsp⟩ := splitSlash_decomp cs hm
    rw [hsp] at h
    injection h with h1 h2
    exact absurd h2 (splitSlash_ne_nil cs')
  · rw [splitSlash_no_sep cs hm] at h
    injection h with h1 _
    exact ⟨h1.symm, hm⟩

theorem str_ext {a b : String} (h : a.data = b.data) : a = b := by
  obtain ⟨la⟩ := a
  obtain ⟨lb⟩ := b
  exact congrArg String.mk h

theorem data_append (a b : String) : (a ++ b).data = a.data ++ b.data := by
  obtain ⟨la⟩ := a
  obtain ⟨lb⟩ := b
  rfl

theorem string_empty_append (s : String) : "" ++ s = s :=
  str_ext (by rw [data_append]; rfl)

theorem string_append_assoc (a b c : String) : a ++ b ++ c = a ++ (b ++ c) :=
  str_ext (by simp [data_append])

theorem mk_ne_empty_iff {l : List Char} : String.mk l ≠ "" ↔ l ≠ [] := by
  constructor
  · intro h hc
    rw [hc] at h
    exact h rfl
  · intro h hc
    exact h (congrArg String.data hc)

theorem isPreB_append_same : ∀ (xs p s : List Char),
    isPreB (xs ++ p) (xs ++ s) = isPreB p s := by
  intro xs
  induction xs with
  | nil => intro p s; rfl
  | cons a xs ih =>
    intro p s
    rw [List.cons_append, List.cons_append, isPreB]
    simp [ih]

theorem isPreB_append_split : ∀ (xs P ys : List Char),
    isPreB P (xs ++ ys) = true →
    isPreB P xs = true ∨ ∃ Q, P = xs ++ Q ∧ isPreB Q ys = true := by
  intro xs
  induction xs with
  | nil =>
    intro P ys h
    exact Or.inr ⟨P, rfl, h⟩
  | cons a xs ih =>
    intro P ys h
    cases P with
    | nil => exact Or.inl rfl
    | cons b P2 =>
      rw [List.cons_append, isPreB, Bool.and_eq_true, decide_eq_true_eq] at h
      obtain ⟨hab, h2⟩ := h
      subst hab
      rcases ih P2 ys h2 with h3 | ⟨Q, hq, hq2⟩
      · left
        rw [isPreB]
        simp [h3]
      · right
        exact ⟨Q, by rw [hq, List.cons_append], hq2⟩

theorem prefixAux_shift : ∀ (L : List String) (acc : String),
    (prefixAux acc L).map Prod.fst =
      ((prefixAux "" L).map Prod.fst).map (fun x => acc ++ x) := by
  intro L
  induction L with
  | nil => intro acc; rfl
  | cons n L ih =>
    intro acc
    by_cases hn : n = ""
    · simp only [prefixAux, if_pos hn]
      exact ih acc
    · simp only [prefixAux, if_neg hn, List.map_cons]
      congr 1
      · simp only [string_append_assoc, string_empty_append]
      · rw [ih (acc ++ n ++ "/"), ih ("" ++ n ++ "/")]
        generalize (prefixAux "" L).map Prod.fst = base
        rw [List.map_map]
        refine List.map_congr_left ?_
        intro x _
        show acc ++ n ++ "/" ++ x = acc ++ ("" ++ n ++ "/" ++ x)
        simp only [string_append_assoc, string_empty_append]

theorem splitSlash_append {s1 : List Char} (h : '/' ∉ s1) (cs' : List Char) :
    splitSlash (s1 ++ '/' :: cs') = s1 :: splitSlash cs' := by
  induction s1 with
  | nil => rw [List.nil_append, splitSlash, if_pos rfl]
  | cons a s1 ih =>
    have ha : ¬ a = '/' := fun he => h (by simp [he])
    have h2 : '/' ∉ s1 := fun hm => h (by simp [hm])
    rw [List.cons_append, splitSlash, if_neg ha, ih h2]

theorem keyParts_append {s1 cs' : List Char} (hns : '/' ∉ s1) (h1 : s1 ≠ []) :
    keyParts (String.mk (s1 ++ '/' :: cs')) = String.mk s1 :: keyParts (String.mk cs') := by
  unfold keyParts
  rw [show (String.mk (s1 ++ '/' :: cs')).data = s1 ++ '/' :: cs' from rfl,
    splitSlash_append hns cs', List.map_cons]
  rw [List.filter_cons_of_pos (by simp only [decide_eq_true_eq]; exact mk_ne_empty_iff.2 h1)]

theorem ancKeys_append {s1 cs' : List Char} (hns : '/' ∉ s1) (h1 : s1 ≠ [])
    (h2 : keyParts (String.mk cs') ≠ []) :
    ancKeys (String.mk (s1 ++ '/' :: cs')) =
      ("" ++ String.mk s1 ++ "/") ::
        (ancKeys (String.mk cs')).map (fun x => ("" ++ String.mk s1 ++ "/") ++ x) := by
  unfold ancKeys folderPrefixesForKey
  rw [keyParts_append hns h1]
  obtain ⟨q, qs, hq⟩ : ∃ q qs, keyParts (String.mk cs') = q :: qs := by
    cases hh : keyParts (String.mk cs') with
    | nil => exact absurd hh h2
    | cons q qs => exact ⟨q, qs, rfl⟩
  rw [hq]
  rw [show (String.mk s1 :: q :: qs).dropLast = String.mk s1 :: (q :: qs).dropLast from rfl]
  simp only [prefixAux, if_neg (mk_ne_empty_iff.2 h1), List.map_cons]
  congr 1
  exact prefixAux_shift ((q :: qs).dropLast) ("" ++ String.mk s1 ++ "/")

theorem ancKeys_append_nil {s1 cs' : List Char} (hns : '/' ∉ s1) (h1 : s1 ≠ [])
    (h2 : keyParts (String.mk cs') = []) :
    ancKeys (String.mk (s1 ++ '/' :: cs')) = [] := by
  unfold ancKeys folderPrefixesForKey
  rw [keyParts_append hns h1, h2]
  rfl

theorem ancKeys_no_sep {cs : List Char} (h : '/' ∉ cs) :
    ancKeys (String.mk cs) = [] := by
  unfold ancKeys folderPrefixesForKey keyParts
  rw [show (String.mk cs).data = cs from rfl, splitSlash_no_sep cs h]
  by_cases hc : String.mk cs = ""
  · simp [hc, prefixAux]
  · simp [hc, prefixAux]

theorem keyParts_nil_of_wf {cs' : List Char}
    (hwf : ∀ s ∈ (splitSlash cs').dropLast, s ≠ [])
    (h : keyParts (String.mk cs') = []) : cs' = [] := by
  unfold keyParts at h
  rw [List.filter_eq_nil_iff] at h
  rw [show (String.mk cs').data = cs' from rfl] at h
  cases hq : splitSlash cs' with
  | nil => exact absurd hq (splitSlash_ne_nil cs')
  | cons t ts =>
    have hmkt : String.mk t = "" := by
      have := h (String.mk t) (by rw [hq]; simp)
      simpa using this
    have ht : t = [] := congrArg String.data hmkt
    cases ts with
    | nil =>
      obtain ⟨hteq, _⟩ := splitSlash_single hq
      rw [← hteq]
      exact ht
    | cons u us =>
      have hmem : t ∈ (splitSlash cs').dropLast := by
        rw [hq]
        show t ∈ t :: (u :: us).dropLast
        exact List.mem_cons_self _ _
      exact absurd ht (hwf t hmem)

theorem isPreB_concat : ∀ (xs P : List Char) (c : Char),
    isPreB P (xs ++ [c]) = true → isPreB P xs = true ∨ P = xs ++ [c] := by
  intro xs
  induction xs with
  | nil =>
    intro P c h
    cases P with
    | nil => exact Or.inl rfl
    | cons a as =>
      rw [List.nil_append] at h
      rw [isPreB, Bool.and_eq_true, decide_eq_true_eq] at h
      obtain ⟨hac, h2⟩ := h
      cases as with
      | nil => exact Or.inr (by rw [hac]; rfl)
      | cons b bs => simp [isPreB] at h2
  | cons x xs ih =>
    intro P c h
    cases P with
    | nil => exact Or.inl rfl
    | cons a as =>
      rw [List.cons_append] at h
      rw [isPreB, Bool.and_eq_true, decide_eq_true_eq] at h
      obtain ⟨hax, h2⟩ := h
      subst hax
      rcases ih as c h2 with h3 | h3
      · left
        rw [isPreB]
        simp [h3]
      · right
        rw [h3, List.cons_append]

theorem anc_strict_pre : ∀ (fuel : Nat) (cs : List Char), cs.length ≤ fuel →
    (∀ s ∈ (splitSlash cs).dropLast, s ≠ []) →
    ∀ P : String, P ∈ ancKeys (String.mk cs) →
      isPreB P.data cs = true ∧ P.data ≠ cs ∧ P.data.getLast? = some '/' := by
  intro fuel
  induction fuel with
  | zero =>
    intro cs hle hwf P hP
    have hnil : cs = [] := List.length_eq_zero.mp (Nat.le_zero.mp hle)
    subst hnil
    rw [ancKeys_no_sep (by simp)] at hP
    exact absurd hP (List.not_mem_nil P)
  | succ n ih =>
    intro cs hle hwf P hP
    by_cases hm : '/' ∈ cs
    · obtain ⟨s1, cs', heq, hns, hsp⟩ := splitSlash_decomp cs hm
      subst heq
      have hnil : splitSlash cs' ≠ [] := splitSlash_ne_nil cs'
      have hs1 : s1 ≠ [] := by
        apply hwf
        rw [hsp]
        cases hq : splitSlash cs' with
        | nil => exact absurd hq hnil
        | cons q qs =>
          show s1 ∈ s1 :: (q :: qs).dropLast
          exact List.mem_cons_self _ _
      have hwf' : ∀ s ∈ (splitSlash cs').dropLast, s ≠ [] := by
        intro s hs
        apply hwf
        rw [hsp]
        cases hq : splitSlash cs' with
        | nil => exact absurd hq hnil
        | cons q qs =>
          rw [hq] at hs
          show s ∈ s1 :: (q :: qs).dropLast
          exact List.mem_cons_of_mem _ hs
      have hlen : cs'.length ≤ n := by
        rw [List.length_append, List.length_cons] at hle
        omega
      by_cases hkp : keyParts (String.mk cs') = []
      · rw [ancKeys_append_nil hns hs1 hkp] at hP
        exact absurd hP (List.not_mem_nil P)
      · rw [ancKeys_append hns hs1 hkp] at hP
        have hsplit : s1 ++ '/' :: cs' = (s1 ++ ['/']) ++ cs' := by simp
        rcases List.mem_cons.1 hP with hP1 | hP1
        · subst hP1
          have hdata : ("" ++ String.mk s1 ++ "/").data = s1 ++ ['/'] := by
            rw [data_append, data_append]
            rfl
          refine ⟨?_, ?_, ?_⟩
          · rw [hdata, hsplit]
            exact (isPreB_iff_exists _ _).2 ⟨cs', rfl⟩
          · rw [hdata]
            intro hcontra
            have h3 : ['/'] = '/' :: cs' := List.append_cancel_left hcontra
            have h4 : cs' = [] := by
              injection h3 with h5 h6
              exact h6.symm
            rw [h4] at hkp
            exact hkp rfl
          · rw [hdata]
            exact List.getLast?_concat _
        · obtain ⟨Q, hQmem, hQeq⟩ := List.mem_map.1 hP1
          obtain ⟨hQ1, hQ2, hQ3⟩ := ih cs' hlen hwf' Q hQmem
          have hdata : (("" ++ String.mk s1 ++ "/") ++ Q).data = (s1 ++ ['/']) ++ Q.data := by
            rw [data_append, data_append, data_append]
            rfl
          rw [← hQeq]
          refine ⟨?_, ?_, ?_⟩
          · rw [hdata, hsplit, isPreB_append_same]
            exact hQ1
          · rw [hdata, hsplit]
            intro hcontra
            exact hQ2 (List.append_cancel_left hcontra)
          · rw [hdata]
            have hQne : Q.data ≠ [] := by
              intro h0
              rw [h0] at hQ3
              simp at hQ3
            rw [List.getLast?_append_of_ne_nil _ hQne]
            exact hQ3
    · rw [ancKeys_no_sep hm] at hP
      exact absurd hP (List.not_mem_nil P)

theorem strict_pre_anc : ∀ (fuel : Nat) (cs : List Char), cs.length ≤ fuel →
    (∀ s ∈ (splitSlash cs).dropLast, s ≠ []) →
    ∀ P : List Char, isPreB P cs = true → P ≠ cs → P.getLast? = some '/' →
      String.mk P ∈ ancKeys (String.mk cs) := by
  intro fuel
  induction fuel with
  | zero =>
    intro cs hle hwf P hpre hne hlast
    have hnil : cs = [] := List.length_eq_zero.mp (Nat.le_zero.mp hle)
    subst hnil
    cases P with
    | nil => exact absurd rfl hne
    | cons a as => simp [isPreB] at hpre
  | succ n ih =>
    intro cs hle hwf P hpre hne hlast
    by_cases hm : '/' ∈ cs
    · obtain ⟨s1, cs', heq, hns, hsp⟩ := splitSlash_decomp cs hm
      subst heq
      have hnil : splitSlash cs' ≠ [] := splitSlash_ne_nil cs'
      have hs1 : s1 ≠ [] := by
        apply hwf
        rw [hsp]
        cases hq : splitSlash cs' with
        | nil => exact absurd hq hnil
        | cons q qs =>
          show s1 ∈ s1 :: (q :: qs).dropLast
          exact List.mem_cons_self _ _
      have hwf' : ∀ s ∈ (splitSlash cs').dropLast, s ≠ [] := by
        intro s hs
        apply hwf
        rw [hsp]
        cases hq : splitSlash cs' with
        | nil => exact absurd hq hnil
        | cons q qs =>
          rw [hq] at hs
          show s ∈ s1 :: (q :: qs).dropLast
          exact List.mem_cons_of_mem _ hs
      have hlen : cs'.length ≤ n := by
        rw [List.length_append, List.length_cons] at hle
        omega
      have hsplit : s1 ++ '/' :: cs' = (s1 ++ ['/']) ++ cs' := by simp
      have hdata : ("" ++ String.mk s1 ++ "/").data = s1 ++ ['/'] := by
        rw [data_append, data_append]
        rfl
      have hkpcase : keyParts (String.mk cs') = [] → cs' = [] := keyParts_nil_of_wf hwf'
      have hheadmem : keyParts (String.mk cs') ≠ [] →
          String.mk (s1 ++ ['/']) ∈ ancKeys (String.mk (s1 ++ '/' :: cs')) := by
        intro hkp
        rw [ancKeys_append hns hs1 hkp]
        have : String.mk (s1 ++ ['/']) = "" ++ String.mk s1 ++ "/" :=
          str_ext (by rw [hdata])
        rw [this]
        exact List.mem_cons_self _ _
      rw [hsplit] at hpre
      rcases isPreB_append_split (s1 ++ ['/']) P cs' hpre with hc1 | ⟨Q, hQeq, hQpre⟩
      · rcases isPreB_concat s1 P '/' hc1 with h2 | h2
        · have hslash : '/' ∈ P := getLast_eq_mem hlast
          exact absurd (isPreB_subset h2 '/' hslash) hns
        · by_cases hkp : keyParts (String.mk cs') = []
          · have hc0 : cs' = [] := hkpcase hkp
            rw [hc0] at hne
            rw [h2] at hne
            exact absurd rfl hne
          · rw [h2]
            exact hheadmem hkp
      · by_cases hQ0 : Q = []
        · rw [hQ0, List.append_nil] at hQeq
          by_cases hkp : keyParts (String.mk cs') = []
          · have hc0 : cs' = [] := hkpcase hkp
            rw [hc0] at hne
            rw [hQeq] at hne
            exact absurd rfl hne
          · rw [hQeq]
            exact hheadmem hkp
        · have hQlast : Q.getLast? = some '/' := by
            rw [hQeq, List.getLast?_append_of_ne_nil _ hQ0] at hlast
            exact hlast
          have hQne : Q ≠ cs' := by
            intro h0
            rw [h0, ← hsplit] at hQeq
            exact hne hQeq
          have hQanc : String.mk Q ∈ ancKeys (String.mk cs') :=
            ih cs' hlen hwf' Q hQpre hQne hQlast
          have hkp : keyParts (String.mk cs') ≠ [] := by
            intro hkp0
            have hc0 : cs' = [] := hkpcase hkp0
            rw [hc0] at hQpre
            cases Q with
            | nil => exact hQ0 rfl
            | cons a as => simp [isPreB] at hQpre
          rw [ancKeys_append hns hs1 hkp]
          refine List.mem_cons_of_mem _ ?_
          refine List.mem_map.2 ⟨String.mk Q, hQanc, ?_⟩
          refine str_ext ?_
          rw [data_append, hdata, hQeq]
    · have hslash : '/' ∈ P := getLast_eq_mem hlast
      exact absurd (isPreB_subset hpre '/' hslash) hm

theorem wfKey_parts {k : String} (h : wfKeyB k = true) :
    ∀ s ∈ (splitSlash k.data).dropLast, s ≠ [] := by
  unfold wfKeyB at h
  rw [Bool.and_eq_true] at h
  have h2 := h.2
  rw [List.all_eq_true] at h2
  intro s hs
  have := h2 s hs
  simpa using this

theorem ancPreB_iff_mem {P k : String} (hwf : wfKeyB k = true) :
    ancPreB P k = true ↔ P ∈ ancKeys k := by
  constructor
  · intro h
    unfold ancPreB at h
    simp only [Bool.and_eq_true, decide_eq_true_eq] at h
    obtain ⟨⟨h1, h2⟩, h3⟩ := h
    exact strict_pre_anc k.data.length k.data (le_refl _) (wfKey_parts hwf) P.data
      h1 (fun he => h2 (str_ext he)) h3
  · intro h
    obtain ⟨h1, h2, h3⟩ := anc_strict_pre k.data.length k.data (le_refl _)
      (wfKey_parts hwf) P h
    unfold ancPreB
    simp only [Bool.and_eq_true, decide_eq_true_eq]
    exact ⟨⟨h1, fun he => h2 (congrArg String.data he)⟩, h3⟩

theorem anc_keyLt {P k : String} (hwf : wfKeyB k = true) (h : P ∈ ancKeys k) :
    keyLt P k := by
  obtain ⟨h1, h2, _⟩ := anc_strict_pre k.data.length k.data (le_refl _)
    (wfKey_parts hwf) P h
  exact strictPre_lexLt _ _ h1 h2

theorem not_self_anc {k : String} (hwf : wfKeyB k = true) : k ∉ ancKeys k := by
  intro h
  obtain ⟨_, h2, _⟩ := anc_strict_pre k.data.length k.data (le_refl _)
    (wfKey_parts hwf) k h
  exact h2 rfl

theorem processObj_folderJ_sorted (st : ScanSt) (obj : RemoteObj)
    (hno : obj.key ∉ ((folderPrefixesForKey obj.key).foldl processFolder st).seenFolders)
    (hJ : ∀ f ∈ st.seenFolders, ∃ r, getRow st.env.rows f = some r ∧ folderOk r) :
    ∀ f ∈ (processObj st obj).seenFolders,
      ∃ r, getRow (processObj st obj).env.rows f = some r ∧ folderOk r := by
  have hJF := foldF_folderJ (folderPrefixesForKey obj.key) st hJ
  intro f hf
  exact fileStage_folderJ _ obj hno hJF f hf

theorem scan_c2_inv : ∀ (rem : List RemoteObj) (st : ScanSt),
    (∀ o ∈ rem, wfKeyB o.key = true) →
    ((rem.map (fun o => o.key)).Pairwise keyLt) →
    (∀ f ∈ st.seenFolders, ∃ r, getRow st.env.rows f = some r ∧ folderOk r) →
    (∀ f ∈ st.seenFolders, ∀ o ∈ rem, keyLt f o.key) →
    (∀ f ∈ st.seenFolders, f ∈ st.seenKeys) →
    (∀ k ∈ st.seenKeys, k ∉ st.seenFolders →
      wfKeyB k = true ∧ ∀ P ∈ ancKeys k, P ∈ st.seenFolders) →
    (∀ f ∈ (rem.foldl processObj st).seenFolders,
      ∃ r, getRow (rem.foldl processObj st).env.rows f = some r ∧ folderOk r) ∧
    (∀ f ∈ (rem.foldl processObj st).seenFolders,
      f ∈ (rem.foldl processObj st).seenKeys) ∧
    (∀ k ∈ (rem.foldl processObj st).seenKeys,
      k ∉ (rem.foldl processObj st).seenFolders →
      wfKeyB k = true ∧ ∀ P ∈ ancKeys k, P ∈ (rem.foldl processObj st).seenFolders) := by
  intro rem
  induction rem with
  | nil => intro st _ _ h1 _ h4 h3; exact ⟨h1, h4, h3⟩
  | cons o rem ih =>
    intro st hwf hsort h1 h2 h4 h3
    rw [List.foldl_cons]
    have hwfo : wfKeyB o.key = true := hwf o (by simp)
    have hno : o.key ∉ ((folderPrefixesForKey o.key).foldl processFolder st).seenFolders := by
      intro hmem
      rw [foldF_seenFolders_mem] at hmem
      rcases hmem with hm | hm
      · exact not_self_anc hwfo hm
      · have h0 : lexLtB o.key.data o.key.data = true := h2 o.key hm o (by simp)
        simp [lexLtB_irrefl] at h0
    have h1n : ∀ f ∈ (processObj st o).seenFolders,
        ∃ r, getRow (processObj st o).env.rows f = some r ∧ folderOk r :=
      processObj_folderJ_sorted st o hno h1
    have h2n : ∀ f ∈ (processObj st o).seenFolders, ∀ o2 ∈ rem, keyLt f o2.key := by
      intro f hf o2 ho2
      rw [processObj_seenFolders_mem] at hf
      have hlt2 : keyLt o.key o2.key := by
        rw [List.map_cons, List.pairwise_cons] at hsort
        exact hsort.1 o2.key (List.mem_map.2 ⟨o2, ho2, rfl⟩)
      rcases hf with hm | hm
      · exact lexLtB_trans _ _ _ (anc_keyLt hwfo hm) hlt2
      · exact h2 f hm o2 (by simp [ho2])
    have h4n : ∀ f ∈ (processObj st o).seenFolders, f ∈ (processObj st o).seenKeys :=
      processObj_SFsub st o h4
    have h3n : ∀ k ∈ (processObj st o).seenKeys, k ∉ (processObj st o).seenFolders →
        wfKeyB k = true ∧ ∀ P ∈ ancKeys k, P ∈ (processObj st o).seenFolders := by
      intro k hk hnin
      rw [processObj_seenKeys_mem st o h4] at hk
      rcases hk with hk | hk | hk
      · subst hk
        refine ⟨hwfo, ?_⟩
        intro P hP
        rw [processObj_seenFolders_mem]
        exact Or.inl hP
      · exact absurd ((processObj_seenFolders_mem st o k).2 (Or.inl hk)) hnin
      · by_cases hinF : k ∈ st.seenFolders
        · exact absurd ((processObj_seenFolders_mem st o k).2 (Or.inr hinF)) hnin
        · obtain ⟨hw, hanc⟩ := h3 k hk hinF
          refine ⟨hw, ?_⟩
          intro P hP
          rw [processObj_seenFolders_mem]
          exact Or.inr (hanc P hP)
    exact ih (processObj st o) (fun o2 ho2 => hwf o2 (by simp [ho2]))
      (by rw [List.map_cons, List.pairwise_cons] at hsort; exact hsort.2)
      h1n h2n h4n h3n

theorem processFolderR_seenFolders_mem (st : ScanSt) (p : String × String) (x : String) :
    x ∈ (processFolderR st p).seenFolders ↔ x = p.1 ∨ x ∈ st.seenFolders := by
  unfold processFolderR
  split
  · rename_i hc
    have hp : p.1 ∈ st.seenFolders := contains_mem.1 hc
    constructor
    · intro h
      exact Or.inr h
    · rintro (h | h)
      · rwa [h]
      · exact h
  · simp

theorem processFolderR_getRow_ne (st : ScanSt) (p : String × String) {k : String}
    (h : k ≠ p.1) :
    getRow (processFolderR st p).env.rows k = getRow st.env.rows k := by
  unfold processFolderR
  split
  · rfl
  · exact getRow_upsert_ne (by simpa [folderRow] using h)

theorem processFolderR_getRow_self (st : ScanSt) (p : String × String)
    (hprev : p.1 ∈ st.seenFolders → ∃ r, getRow st.env.rows p.1 = some r ∧ folderOk r) :
    ∃ r, getRow (processFolderR st p).env.rows p.1 = some r ∧ folderOk r := by
  unfold processFolderR
  split
  · rename_i hc
    exact hprev (contains_mem.1 hc)
  · exact ⟨folderRow p st.env.clock, getRow_upsert_self, folderOk_folderRow p _⟩

theorem processFolderR_folderJ (st : ScanSt) (p : String × String)
    (hJ : ∀ f ∈ st.seenFolders, ∃ r, getRow st.env.rows f = some r ∧ folderOk r) :
    ∀ f ∈ (processFolderR st p).seenFolders,
      ∃ r, getRow (processFolderR st p).env.rows f = some r ∧ folderOk r := by
  intro f hf
  by_cases hfp : f = p.1
  · subst hfp
    exact processFolderR_getRow_self st p (fun hm => hJ _ hm)
  · rw [processFolderR_getRow_ne st p hfp]
    rcases (processFolderR_seenFolders_mem st p f).1 hf with h1 | h1
    · exact absurd h1 hfp
    · exact hJ f h1

theorem foldFR_folderJ (ps : List (String × String)) :
    ∀ st : ScanSt,
      (∀ f ∈ st.seenFolders, ∃ r, getRow st.env.rows f = some r ∧ folderOk r) →
      ∀ f ∈ (ps.foldl processFolderR st).seenFolders,
        ∃ r, getRow (ps.foldl processFolderR st).env.rows f = some r ∧ folderOk r := by
  induction ps with
  | nil => intro st h; exact h
  | cons p ps ih =>
    intro st h
    exact ih _ (processFolderR_folderJ st p h)

theorem foldFR_seenFolders_mem (ps : List (String × String)) :
    ∀ (st : ScanSt) (x : String),
      x ∈ (ps.foldl processFolderR st).seenFolders ↔
        x ∈ ps.map Prod.fst ∨ x ∈ st.seenFolders := by
  induction ps with
  | nil => intro st x; simp
  | cons p ps ih =>
    intro st x
    rw [List.foldl_cons, ih, processFolderR_seenFolders_mem]
    simp only [List.map_cons, List.mem_cons]
    tauto

theorem processFolderR_fileAnc (st : ScanSt) (p : String × String)
    (h : ∀ r ∈ st.env.rows, r.typ = "file" →
      wfKeyB r.key = true ∧ ∀ P ∈ ancKeys r.key, P ∈ st.seenFolders) :
    ∀ r ∈ (processFolderR st p).env.rows, r.typ = "file" →
      wfKeyB r.key = true ∧ ∀ P ∈ ancKeys r.key, P ∈ (processFolderR st p).seenFolders := by
  intro r hr htyp
  have hsub : ∀ x ∈ st.seenFolders, x ∈ (processFolderR st p).seenFolders := by
    intro x hx
    rw [processFolderR_seenFolders_mem]
    exact Or.inr hx
  unfold processFolderR at hr
  split at hr
  · obtain ⟨hw, ha⟩ := h r hr htyp
    exact ⟨hw, fun P hP => hsub P (ha P hP)⟩
  · rcases mem_upsert_cases hr with h1 | ⟨h1, _⟩
    · rw [h1] at htyp
      simp [folderRow] at htyp
    · obtain ⟨hw, ha⟩ := h r h1 htyp
      exact ⟨hw, fun P hP => hsub P (ha P hP)⟩

theorem foldFR_fileAnc (ps : List (String × String)) :
    ∀ st : ScanSt, (∀ r ∈ st.env.rows, r.typ = "file" →
        wfKeyB r.key = true ∧ ∀ P ∈ ancKeys r.key, P ∈ st.seenFolders) →
      ∀ r ∈ (ps.foldl processFolderR st).env.rows, r.typ = "file" →
        wfKeyB r.key = true ∧
          ∀ P ∈ ancKeys r.key, P ∈ (ps.foldl processFolderR st).seenFolders := by
  induction ps with
  | nil => intro st h; exact h
  | cons p ps ih =>
    intro st h
    exact ih _ (processFolderR_fileAnc st p h)

theorem scanR_c2_inv : ∀ (rem : List RemoteObj) (st : ScanSt),
    (∀ o ∈ rem, wfKeyB o.key = true) →
    ((rem.map (fun o => o.key)).Pairwise keyLt) →
    (∀ f ∈ st.seenFolders, ∃ r, getRow st.env.rows f = some r ∧ folderOk r) →
    (∀ f ∈ st.seenFolders, ∀ o ∈ rem, keyLt f o.key) →
    (∀ r ∈ st.env.rows, r.typ = "file" →
      wfKeyB r.key = true ∧ ∀ P ∈ ancKeys r.key, P ∈ st.seenFolders) →
    (∀ f ∈ (rem.foldl processObjR st).seenFolders,
      ∃ r, getRow (rem.foldl processObjR st).env.rows f = some r ∧ folderOk r) ∧
    (∀ r ∈ (rem.foldl processObjR st).env.rows, r.typ = "file" →
      wfKeyB r.key = true ∧
        ∀ P ∈ ancKeys r.key, P ∈ (rem.foldl processObjR st).seenFolders) := by
  intro rem
  induction rem with
  | nil => intro st _ _ h1 _ h5; exact ⟨h1, h5⟩
  | cons o rem ih =>
    intro st hwf hsort h1 h2 h5
    rw [List.foldl_cons]
    have hwfo : wfKeyB o.key = true := hwf o (by simp)
    have hno : o.key ∉ ((folderPrefixesForKey o.key).foldl processFolderR st).seenFolders := by
      intro hmem
      rw [foldFR_seenFolders_mem] at hmem
      rcases hmem with hm | hm
      · exact not_self_anc hwfo hm
      · have h0 : lexLtB o.key.data o.key.data = true := h2 o.key hm o (by simp)
        simp [lexLtB_irrefl] at h0
    have hJf := foldFR_folderJ (folderPrefixesForKey o.key) st h1
    have hAf := foldFR_fileAnc (folderPrefixesForKey o.key) st h5
    have h1n : ∀ f ∈ (processObjR st o).seenFolders,
        ∃ r, getRow (processObjR st o).env.rows f = some r ∧ folderOk r := by
      intro f hf
      have hfF : f ∈ ((folderPrefixesForKey o.key).foldl processFolderR st).seenFolders := hf
      have hfo : f ≠ o.key := fun he => hno (he ▸ hfF)
      have hrw : getRow (processObjR st o).env.rows f =
          getRow ((folderPrefixesForKey o.key).foldl processFolderR st).env.rows f := by
        show getRow (upsertRow _ (fileRow o _)) f = _
        exact getRow_upsert_ne (by simpa [fileRow] using hfo)
      rw [hrw]
      exact hJf f hfF
    have h5n : ∀ r ∈ (processObjR st o).env.rows, r.typ = "file" →
        wfKeyB r.key = true ∧ ∀ P ∈ ancKeys r.key, P ∈ (processObjR st o).seenFolders := by
      intro r hr htyp
      have hr2 : r ∈ upsertRow
          ((folderPrefixesForKey o.key).foldl processFolderR st).env.rows
          (fileRow o ((folderPrefixesForKey o.key).foldl processFolderR st).env.clock) := hr
      rcases mem_upsert_cases hr2 with hcase | ⟨hcase, _⟩
      · constructor
        · rw [hcase]
          exact hwfo
        · intro P hP
          rw [hcase] at hP
          have hP2 : P ∈ (folderPrefixesForKey o.key).map Prod.fst := hP
          show P ∈ ((folderPrefixesForKey o.key).foldl processFolderR st).seenFolders
          rw [foldFR_seenFolders_mem]
          exact Or.inl hP2
      · obtain ⟨hw, ha⟩ := hAf r hcase htyp
        exact ⟨hw, fun P hP => ha P hP⟩
    have h2n : ∀ f ∈ (processObjR st o).seenFolders, ∀ o2 ∈ rem, keyLt f o2.key := by
      intro f hf o2 ho2
      have hfF : f ∈ ((folderPrefixesForKey o.key).foldl processFolderR st).seenFolders := hf
      rw [foldFR_seenFolders_mem] at hfF
      have hlt2 : keyLt o.key o2.key := by
        rw [List.map_cons, List.pairwise_cons] at hsort
        exact hsort.1 o2.key (List.mem_map.2 ⟨o2, ho2, rfl⟩)
      rcases hfF with hm | hm
      · exact lexLtB_trans _ _ _ (anc_keyLt hwfo hm) hlt2
      · exact h2 f hm o2 (by simp [ho2])
    exact ih (processObjR st o) (fun o2 ho2 => hwf o2 (by simp [ho2]))
      (by rw [List.map_cons, List.pairwise_cons] at hsort; exact hsort.2)
      h1n h2n h5n

theorem rebuild_rows (objs : List RemoteObj) (env : Env) :
    (rebuildIndex objs false env).2.rows =
      (objs.foldl processObjR (initScan { env with rows := [] })).env.rows := by
  rfl

/-- C2.  Amended: for remote listings of well-formed keys (no leading `/`,
no empty path segment), delivered in the strictly ascending key order of
the S3 contract, both a completed full rebuild and a completed delta
refresh leave a store in which every proper `/`-delimited ancestor prefix
of every file entry's key is present as a folder-kind row; and a
root-level key (no separator) has no ancestor prefixes at all, so it
contributes no folder entry. -/
theorem claim_c2_ancestor_folders
    (objs : List RemoteObj) (env : Env)
    (hwf : ∀ o ∈ objs, wfKeyB o.key = true)
    (hsort : (objs.map (fun o => o.key)).Pairwise keyLt)
    (hnd : (env.rows.map (fun r => r.key)).Nodup) :
    (∀ r ∈ (rebuildIndex objs false env).2.rows, r.typ = "file" →
      ∀ P : String, ancPreB P r.key = true →
        ∃ r2, getRow (rebuildIndex objs false env).2.rows P = some r2 ∧
          r2.typ = "folder") ∧
    (∀ r ∈ (refreshIndex objs false env).2.rows, r.typ = "file" →
      ∀ P : String, ancPreB P r.key = true →
        ∃ r2, getRow (refreshIndex objs false env).2.rows P = some r2 ∧
          r2.typ = "folder") ∧
    (∀ k : String, ('/' : Char) ∉ k.data →
      folderPrefixesForKey k = [] ∧ ∀ p : String, ancPreB p k = false) := by
  refine ⟨?_, ?_, ?_⟩
  · intro r hr htyp P hP
    rw [rebuild_rows] at hr ⊢
    obtain ⟨hJ, hA⟩ := scanR_c2_inv objs (initScan { env with rows := [] }) hwf hsort
      (by intro f hf; simp [initScan] at hf)
      (by intro f hf; simp [initScan] at hf)
      (by intro r2 hr2; simp [initScan] at hr2)
    obtain ⟨hw, hanc⟩ := hA r hr htyp
    have hPanc : P ∈ ancKeys r.key := (ancPreB_iff_mem hw).1 hP
    obtain ⟨r2, hg, hok⟩ := hJ P (hanc P hPanc)
    exact ⟨r2, hg, hok.1⟩
  · intro r hr htyp P hP
    have hrows : (refreshIndex objs false env).2.rows =
        (refreshScan objs env).env.rows.filter
          (fun x => (refreshScan objs env).seenKeys.contains x.key) := by
      rw [refreshIndex_ok]
    rw [hrows] at hr
    obtain ⟨hrS, hrseen⟩ := List.mem_filter.1 hr
    have hseenK : r.key ∈ (refreshScan objs env).seenKeys := contains_mem.1 hrseen
    obtain ⟨hJ, hSF, hQ⟩ := scan_c2_inv objs (initScan env) hwf hsort
      (by intro f hf; simp [initScan] at hf)
      (by intro f hf; simp [initScan] at hf)
      (by intro f hf; simp [initScan] at hf)
      (by intro k hk; simp [initScan] at hk)
    by_cases hrF : r.key ∈ (refreshScan objs env).seenFolders
    · obtain ⟨r0, hg0, hok0⟩ := hJ r.key hrF
      have hnd2 : ((refreshScan objs env).env.rows.map (fun x => x.key)).Nodup :=
        scan_nodup objs (initScan env) hnd
      have hgr : getRow (List.foldl processObj (initScan env) objs).env.rows r.key =
          some r :=
        getRow_of_mem_nodup hnd2 hrS rfl
      rw [hgr] at hg0
      injection hg0 with he
      rw [he] at htyp
      rw [hok0.1] at htyp
      exact absurd htyp (by decide)
    · obtain ⟨hw, hanc⟩ := hQ r.key hseenK hrF
      have hPanc : P ∈ ancKeys r.key := (ancPreB_iff_mem hw).1 hP
      have hPF : P ∈ (refreshScan objs env).seenFolders := hanc P hPanc
      obtain ⟨r2, hg2, hok2⟩ := hJ P hPF
      have hobs : observedB objs P = true := by
        rw [← refreshScan_seen_eq_observed objs env P]
        exact contains_mem.2 (hSF P hPF)
      exact ⟨r2, getRow_filter_seen hnd hg2 hobs, hok2.1⟩
  · intro k hk
    constructor
    · have h0 : ancKeys k = [] := ancKeys_no_sep hk
      exact List.map_eq_nil_iff.mp h0
    · intro p
      cases hcase : ancPreB p k with
      | false => rfl
      | true =>
        unfold ancPreB at hcase
        simp only [Bool.and_eq_true, decide_eq_true_eq] at hcase
        obtain ⟨⟨h1, _⟩, h3⟩ := hcase
        exact absurd (isPreB_subset h1 '/' (getLast_eq_mem h3)) hk

/-- The claim as frozen, without the well-formedness restriction, is
false: a completed rebuild of the single well-ordered listing `"/a"`
stores a file row whose proper ancestor prefix `"/"` (a `/`-delimited
prefix ending in the separator) has no row at all. -/
theorem claim_c2_counterexample_leading_slash :
    (∃ r ∈ (rebuildIndex [{ key := "/a", size := 1, lastModified := none, etag := none }]
        false { rows := [], state := {}, clock := 0 }).2.rows,
      r.typ = "file" ∧ ancPreB "/" r.key = true) ∧
    getRow (rebuildIndex [{ key := "/a", size := 1, lastModified := none, etag := none }]
        false { rows := [], state := {}, clock := 0 }).2.rows "/" = none := by
  decide

theorem claim_c2_ancestor_folders_witness :
    ((∀ o ∈ [({ key := "a/b.txt", size := 3, lastModified := none, etag := none } : RemoteObj)], wfKeyB o.key = true) ∧
      (([({ key := "a/b.txt", size := 3, lastModified := none, etag := none } : RemoteObj)].map (fun o => o.key)).Pairwise keyLt) ∧
      ((([] : List Row).map (fun r => r.key)).Nodup)) ∧
    ((∀ r ∈ (rebuildIndex [{ key := "a/b.txt", size := 3, lastModified := none, etag := none }] false { rows := [], state := {}, clock := 0 }).2.rows,
        r.typ = "file" → ∀ P : String, ancPreB P r.key = true →
        ∃ r2, getRow (rebuildIndex [{ key := "a/b.txt", size := 3, lastModified := none, etag := none }] false { rows := [], state := {}, clock := 0 }).2.rows P = some r2 ∧
          r2.typ = "folder") ∧
      (∀ r ∈ (refreshIndex [{ key := "a/b.txt", size := 3, lastModified := none, etag := none }] false { rows := [], state := {}, clock := 0 }).2.rows,
        r.typ = "file" → ∀ P : String, ancPreB P r.key = true →
        ∃ r2, getRow (refreshIndex [{ key := "a/b.txt", size := 3, lastModified := none, etag := none }] false { rows := [], state := {}, clock := 0 }).2.rows P = some r2 ∧
          r2.typ = "folder") ∧
      (∀ k : String, ('/' : Char) ∉ k.data →
        folderPrefixesForKey k = [] ∧ ∀ p : String, ancPreB p k = false)) :=
  ⟨⟨by decide, by simp [List.pairwise_cons], by simp⟩,
    claim_c2_ancestor_folders
      [{ key := "a/b.txt", size := 3, lastModified := none, etag := none }]
      { rows := [], state := {}, clock := 0 }
      (by decide) (by simp [List.pairwise_cons]) (by simp)⟩
end S3W
